import Mathlib

/-!
The program shim_executable : command-line tokenizer and argument extractors

A shallow embedding of `src/get_argument.h` (`ParseArguments`,
`CollapseArguments`, `ReparseArguments` and the three `GetArgument`
overloads) together with the properties established about it.

Modelling conventions

* `std::wstring` is a list of characters, `std::vector<std::wstring>` is a
  list of such lists; `clear()` stores the empty list in a slot.
* A `std::regex_iterator` is the list of the matches it walks, each match
  being its `position()` and `length()`.
* `size_t` cursors are natural numbers (they never go below zero on the
  paths that are taken); the `int` index of the positional overload keeps its
  32-bit two's-complement arithmetic.
* A compiled `wregex` used with `regex_match` is a predicate on a whole token.
-/

namespace Shim

/-- The type `std::wstring`. -/
abbrev WString := List Char

/-- One element of a `regex_iterator`: `position()` and `length()` of the match. -/
structure Match where
  position : Nat
  length : Nat
deriving DecidableEq, Repr

/-! ## The two regular expressions -/

/-- The class `\s` of the regex grammar (classic locale): space, tab, line feed,
vertical tab, form feed, carriage return. -/
def isSpace (c : Char) : Bool :=
  c = ' ' || c = '\t' || c = '\n' || c = '\x0b' || c = '\x0c' || c = '\r'

/-- The bracket class `[^\s=]` of `WORD_REGEX`. -/
def isWordChar (c : Char) : Bool :=
  !(isSpace c || c = '=')

/-- The matches of `WORD_REGEX` (`[^\s=]+`) in the text that remains at offset
`pos`. `start` is the offset at which the run being matched began, if a run is
open. The `+` is greedy, so every match is a maximal run of `[^\s=]`
characters, and the next search resumes where the run ended. -/
def wordMatches : WString → Nat → Option Nat → List Match
  | [], pos, some st => [⟨st, pos - st⟩]
  | [], _, none => []
  | c :: cs, pos, some st =>
    if isWordChar c then wordMatches cs (pos + 1) (some st)
    else ⟨st, pos - st⟩ :: wordMatches cs (pos + 1) none
  | c :: cs, pos, none =>
    if isWordChar c then wordMatches cs (pos + 1) (some pos)
    else wordMatches cs (pos + 1) none

/-- The matches of `QUOTE_REGEX` (`((?:^|[^\\])(?:\\{2})*)"`) in the text that
remains at offset `pos`.

A match starts at an anchor: the beginning of the line (`^`, first search
only) or one character other than a backslash; it continues with an even
number of backslashes and ends with the quote. `anchor` is the offset of the
candidate match start that is still alive (`none` right after a match: the
next search starts behind the matched quote, where `^` does not hold and the
quote just consumed is no longer available as the `[^\\]` character), and
`evenBs` tells whether the backslashes read since the anchor are even in
number. A quote that cannot close a match is itself a `[^\\]` character and
becomes the next anchor. -/
def quoteMatches : WString → Nat → Option Nat → Bool → List Match
  | [], _, _, _ => []
  | c :: cs, pos, anchor, evenBs =>
    if c = '\\' then quoteMatches cs (pos + 1) anchor (!evenBs)
    else if c = '"' then
      match anchor, evenBs with
      | some m, true => ⟨m, pos + 1 - m⟩ :: quoteMatches cs (pos + 1) none true
      | _, _ => quoteMatches cs (pos + 1) (some pos) true
    else quoteMatches cs (pos + 1) (some pos) true

/-- The iterator `iter_word(arg_line.begin(), arg_line.end(), regex_word)`. -/
def iterWord (arg_line : WString) : List Match :=
  wordMatches arg_line 0 none

/-- The iterator `iter_quote(arg_line.begin(), arg_line.end(), regex_quote)`. -/
def iterQuote (arg_line : WString) : List Match :=
  quoteMatches arg_line 0 (some 0) true

/-! ## ParseArguments -/

/-- The call `arg_line.substr(pos, n)`. -/
def substr (arg_line : WString) (pos n : Nat) : WString :=
  (arg_line.drop pos).take n

/-- The inner loop of `ParseArguments` (lines 96-108). The list is what is left
of `iter_quote`; its head gives `pos_quote = position() + length() - 1`, and the
empty list is `iter_quote == iter_end`. Returns the iterator and `cnt_quote`. -/
def quoteLoop (pos_word_0 pos_word_1 : Nat) : List Match → Nat → List Match × Nat
  | [], cnt_quote => ([], cnt_quote)
  | m :: iter_quote, cnt_quote =>
    let pos_quote := m.position + m.length - 1
    if pos_word_0 ≤ pos_quote ∧ pos_quote < pos_word_1 then
      quoteLoop pos_word_0 pos_word_1 iter_quote
        (if pos_word_0 = pos_quote ∨ pos_quote = pos_word_1 - 1 then cnt_quote + 1
         else cnt_quote)
    else (m :: iter_quote, cnt_quote)

/-- The local variables of `ParseArguments` that live across the outer loop. -/
structure ParseState where
  output : List WString
  pos_word_0 : Nat
  pos_word_1 : Nat
  iter_quote : List Match
  cnt_quote : Nat
deriving DecidableEq, Repr

/-- The value read by `pos_word_0 = iter_word->position()` (line 119) after
`iter_word++`. At the end iterator the value is never used: the loop exits. -/
def nextWordPosition : List Match → Nat
  | [] => 0
  | w :: _ => w.position

/-- One pass of the outer loop (lines 87-120) on the word `w`, where `rest` is
`iter_word` after the increment of line 111. -/
def parseStep (arg_line : WString) (w : Match) (rest : List Match) (st : ParseState) :
    ParseState :=
  let output :=
    if st.pos_word_1 < st.pos_word_0 then
      st.output ++ [substr arg_line st.pos_word_1 (st.pos_word_0 - st.pos_word_1)]
    else st.output
  let pos_word_1 := w.position + w.length
  let q := quoteLoop st.pos_word_0 pos_word_1 st.iter_quote st.cnt_quote
  if q.2 % 2 < 1 then
    { output := output ++ [substr arg_line st.pos_word_0 (pos_word_1 - st.pos_word_0)]
      pos_word_0 := nextWordPosition rest
      pos_word_1 := pos_word_1
      iter_quote := q.1
      cnt_quote := q.2 }
  else
    { output := output
      pos_word_0 := st.pos_word_0
      pos_word_1 := pos_word_1
      iter_quote := q.1
      cnt_quote := q.2 }

/-- The outer loop `while (iter_word != iter_end)`; returns `output`. -/
def parseLoop (arg_line : WString) : List Match → ParseState → List WString
  | [], st => st.output
  | w :: rest, st => parseLoop arg_line rest (parseStep arg_line w rest st)

/-- The function `ParseArguments(arg_line)`. -/
def ParseArguments (arg_line : WString) : List WString :=
  parseLoop arg_line (iterWord arg_line)
    { output := []
      pos_word_0 := 0
      pos_word_1 := 0
      iter_quote := iterQuote arg_line
      cnt_quote := 0 }

/-! ## CollapseArguments and ReparseArguments -/

/-- The loop of `CollapseArguments`: `output += *iter` for each element. -/
def collapseLoop : List WString → WString → WString
  | [], output => output
  | a :: parsed_args, output => collapseLoop parsed_args (output ++ a)

/-- The function `CollapseArguments(parsed_args)`. -/
def CollapseArguments (parsed_args : List WString) : WString :=
  collapseLoop parsed_args []

/-- The function `ReparseArguments(parsed_args)`: the new content of the vector. -/
def ReparseArguments (parsed_args : List WString) : List WString :=
  ParseArguments (CollapseArguments parsed_args)

/-! ## The three GetArgument overloads -/

/-- A 32-bit `int` result, two's complement. -/
def wrapInt (z : Int) : Int :=
  (z + 2 ^ 31) % 2 ^ 32 - 2 ^ 31

/-- Conversion of an `int` to `size_t` (64 bit) for a comparison with `size()`. -/
def toSizeT (z : Int) : Nat :=
  (z % 2 ^ 64).toNat

/-- The overload `GetArgument(args, index, value)`: returns the result, the new
`value` and the new content of `args`. -/
def GetArgumentIndex (args : List WString) (index : Int) : Bool × WString × List WString :=
  let i2 := wrapInt (index * 2)
  if toSizeT i2 < args.length then
    let value := args.getD (toSizeT i2) []
    let args1 := args.set (toSizeT i2) []
    let i3 := wrapInt (i2 + 1)
    (true, value, if toSizeT i3 < args1.length then args1.set (toSizeT i3) [] else args1)
  else (false, [], args)

/-- The loop of `GetArgument(args, pattern)`: `iter` is at offset `k`, and
`remaining` is the distance from `iter` to `args.end()`. -/
def flagLoop (matches_ : WString → Bool) (args : List WString) : Nat → Nat → Bool × List WString
  | 0, _ => (false, args)
  | remaining + 1, k =>
    if matches_ (args.getD k []) then
      let args1 := args.set k []
      (true, if k + 1 < args1.length then args1.set (k + 1) [] else args1)
    else flagLoop matches_ args remaining (k + 1)

/-- The overload `GetArgument(args, pattern)`; `matches_ tok` is
`regex_match(tok, arg_pattern)` for the compiled, case-insensitive pattern.
Returns the result and the new content of `args`. -/
def GetArgumentFlag (args : List WString) (matches_ : WString → Bool) : Bool × List WString :=
  flagLoop matches_ args args.length 0

/-- The loop of `GetArgument(args, pattern, value)`: `iter` is at offset `k`,
and `remaining` is the distance from `iter` to `args.end()`. -/
def namedLoop (matches_ : WString → Bool) (args : List WString) :
    Nat → Nat → Bool × WString × List WString
  | 0, _ => (false, [], args)
  | remaining + 1, k =>
    if matches_ (args.getD k []) ∧ k + 2 < args.length then
      let args1 := args.set k []
      let args2 := args1.set (k + 1) []
      let value := args2.getD (k + 2) []
      let args3 := args2.set (k + 2) []
      (true, value, if k + 3 < args3.length then args3.set (k + 3) [] else args3)
    else namedLoop matches_ args remaining (k + 1)

/-- The overload `GetArgument(args, pattern, value)`: returns the result, the
new `value` and the new content of `args`. -/
def GetArgumentNamed (args : List WString) (matches_ : WString → Bool) :
    Bool × WString × List WString :=
  namedLoop matches_ args args.length 0

/-- A pattern that is a plain literal, compiled with `regex::icase`: it matches
the tokens equal to the literal up to letter case. -/
def literalPattern (lit : WString) (tok : WString) : Bool :=
  tok.map Char.toLower == lit.map Char.toLower

/-! ## Kinds of token -/

/-- A whitespace token in the words of the specification: a non-empty run that
consists of whitespace characters only. -/
def isWhitespaceToken (tok : WString) : Bool :=
  !tok.isEmpty && tok.all isSpace

/-- A separator token: a non-empty run of characters outside `[^\s=]`, that is
of whitespace characters and `=` signs. -/
def isSeparatorToken (tok : WString) : Bool :=
  !tok.isEmpty && tok.all (fun c => !isWordChar c)

/-- An argument token: a non-empty token whose last character belongs to
`[^\s=]` (it ends where a word ends). -/
def isArgumentToken (tok : WString) : Bool :=
  match tok.getLast? with
  | some c => isWordChar c
  | none => false

/-! ## Shape of the word matches (used in proofs) -/

/-- Every character of `s` at an offset in `[a, b)` is outside `[^\s=]`. -/
def SepRange (s : WString) (a b : Nat) : Prop :=
  ∀ i c, a ≤ i → i < b → s[i]? = some c → isWordChar c = false

/-- The match `w` lies inside `s`, is not empty, and starts and ends on a
character of `[^\s=]`. -/
def WordAt (s : WString) (w : Match) : Prop :=
  1 ≤ w.length ∧ w.position + w.length ≤ s.length ∧
  (∃ c, s[w.position]? = some c ∧ isWordChar c = true) ∧
  (∃ c, s[w.position + w.length - 1]? = some c ∧ isWordChar c = true)

/-- The matches of the list lie in `s` one after the other behind offset `e`:
the first starts at `e + gap` or later, each next one starts strictly behind
the end of the one before, and only separator characters stand between. -/
def WordsAfter (s : WString) : Nat → Nat → List Match → Prop
  | _, _, [] => True
  | gap, e, w :: ws =>
    e + gap ≤ w.position ∧ SepRange s e w.position ∧ WordAt s w ∧
    WordsAfter s 1 (w.position + w.length) ws

/-- The tokens of the list alternate: an argument token at every even offset,
a separator token at every odd offset. -/
def Alternates (out : List WString) : Prop :=
  ∀ i t, out[i]? = some t →
    (i % 2 = 0 → isArgumentToken t = true) ∧ (i % 2 = 1 → isSeparatorToken t = true)

/-- The invariant of the outer loop of `ParseArguments` behind the alternation,
with `R` the words still to come: either an argument is open (an even number of
tokens pushed, no separator pending), or an argument was just closed (an odd
number of tokens pushed, `pos_word_0` already on the next word). -/
def AltInv (s : WString) (R : List Match) (st : ParseState) : Prop :=
  Alternates st.output ∧
  ((st.output.length % 2 = 0 ∧ st.pos_word_0 ≤ st.pos_word_1 ∧
      WordsAfter s 0 st.pos_word_1 R) ∨
    (st.output.length % 2 = 1 ∧ st.pos_word_0 = nextWordPosition R ∧
      WordsAfter s 1 st.pos_word_1 R))

/-! ## Lines made of arguments and whitespace runs -/

/-- A word without quote character: non-empty, every character in `[^\s=]`
(no whitespace, no `=`) and none a quote. -/
def isPlainWord (a : WString) : Bool :=
  !a.isEmpty && a.all (fun c => isWordChar c && c != '"')

/-- A quoted run in the words of the specification: it begins and ends with a
quote and holds no other quote. -/
def isQuotedRun (a : WString) : Prop :=
  ∃ body : WString, a = '"' :: body ++ ['"'] ∧ '"' ∉ body

/-- A quoted run whose closing quote is one that `QUOTE_REGEX` matches: the
quote is preceded by an even number of backslashes (`2 * k`, possibly none),
and these follow a character `c` of the interior that is no backslash. -/
def isClosedQuotedRun (a : WString) : Prop :=
  ∃ (front : WString) (c : Char) (k : Nat),
    a = '"' :: (front ++ c :: List.replicate (2 * k) '\\') ++ ['"'] ∧
    '"' ∉ front ∧ c ≠ '"' ∧ c ≠ '\\'

/-- The line made of the argument `a` followed by the pairs (whitespace run,
argument) of `rest`. -/
def lineOf : WString → List (WString × WString) → WString
  | a, [] => a
  | a, (w, b) :: rest => a ++ (w ++ lineOf b rest)

/-- The arguments and whitespace runs of `lineOf a rest`, one token each. -/
def tokensOf : WString → List (WString × WString) → List WString
  | a, [] => [a]
  | a, (w, b) :: rest => a :: w :: tokensOf b rest

/-- The arguments of `lineOf a rest` in order. -/
def argumentsOf (a : WString) (rest : List (WString × WString)) : List WString :=
  a :: rest.map (fun p => p.2)

/-- An argument as the specification words it for positional indexing: a word
without quote character, or a quoted run. -/
def isStatedArgument (a : WString) : Prop :=
  isPlainWord a = true ∨ isQuotedRun a

/-- An argument whose end the tokenizer finds: a word without quote character,
or a quoted run whose closing quote `QUOTE_REGEX` matches. -/
def isLineArgument (a : WString) : Prop :=
  isPlainWord a = true ∨ isClosedQuotedRun a

/-- The tokens pushed so far, with the separator that line 90 pushes when the
next argument starts at offset `P`. -/
def outputWithSeparator (arg_line : WString) (st : ParseState) (P : Nat) : List WString :=
  if st.pos_word_1 < P then
    st.output ++ [substr arg_line st.pos_word_1 (P - st.pos_word_1)]
  else st.output

/-- The words of a quoted argument that spans `[P, F)`: every word ends behind
`P`, the last one ends at `F` and the others end before `F`. -/
def QuotedWords (P F : Nat) : List Match → Prop
  | [] => False
  | w :: ws =>
    P < w.position + w.length ∧
    ((ws = [] ∧ w.position + w.length = F) ∨
      (w.position + w.length < F ∧ QuotedWords P F ws))

/-! ## Backslashes in front of a quote -/

/-- The number of backslashes at the end of `pre`. -/
def trailingBackslashes (pre : WString) : Nat :=
  (pre.reverse.takeWhile (fun c => c == '\\')).length

/-- The number of consecutive backslashes that stand immediately in front of
offset `i` of `w`. -/
def backslashesBefore (w : WString) (i : Nat) : Nat :=
  trailingBackslashes (w.take i)

/-! ## Tokens as consecutive pieces of the input -/

/-- Every initial part of the token list collapses to an initial part of `s`:
the tokens are consecutive pieces of `s`, the first one at offset 0. -/
def ConsecutiveIn (s : WString) (out : List WString) : Prop :=
  ∀ k, ∃ n, CollapseArguments (out.take k) = s.take n

/-- The offset of `s` up to which the tokens pushed so far reach: the start of
the open argument after an even number of tokens, the end of the last word
after an odd number. -/
def reached (st : ParseState) : Nat :=
  if st.output.length % 2 = 0 then st.pos_word_0 else st.pos_word_1

/-- The invariant of the outer loop of `ParseArguments` behind the consecutive
tokens, with `R` the words still to come. -/
def ConsecutiveInv (s : WString) (R : List Match) (st : ParseState) : Prop :=
  AltInv s R st ∧ ConsecutiveIn s st.output ∧
  CollapseArguments st.output = s.take (reached st)

/-! ## Arithmetic of the positional index -/

theorem wrapInt_small (z : Int) (h0 : 0 ≤ z) (h1 : z < 2 ^ 31) : wrapInt z = z := by
  unfold wrapInt
  norm_num at h1 ⊢
  omega

theorem toSizeT_small (n : Nat) (h : n < 2 ^ 31) : toSizeT (n : Int) = n := by
  unfold toSizeT
  norm_num at h ⊢
  omega

/-! ## Slots of a list after `set` -/

theorem getElem?_set_nil (t : List WString) (k j : Nat) :
    (t.set k [])[j]? = if j = k then t[j]?.map (fun _ => []) else t[j]? := by
  by_cases h : j = k
  · subst h
    by_cases hj : j < t.length
    · simp [hj]
    · have hle : t.length ≤ j := Nat.le_of_not_lt hj
      simp [List.getElem?_eq_none hle, hle]
  · have : k ≠ j := fun e => h e.symm
    simp [h, List.getElem?_set_ne this]

theorem set_guard (t : List WString) (k : Nat) :
    (if k < t.length then t.set k [] else t) = t.set k [] := by
  split
  · rfl
  · next h => exact (List.set_eq_of_length_le (Nat.le_of_not_lt h)).symm

theorem getD_eq_of_getElem? (t : List WString) (k : Nat) (h : k < t.length) :
    t[k]? = some (t.getD k []) := by
  simp [List.getD_eq_getElem?_getD, List.getElem?_eq_getElem h]

/-! ## The loops of the pattern overloads -/

theorem flagLoop_miss (p : WString → Bool) (t : List WString) :
    ∀ (remaining k : Nat),
      (∀ j, k ≤ j → j < k + remaining → p (t.getD j []) = false) →
      flagLoop p t remaining k = (false, t) := by
  intro remaining
  induction remaining with
  | zero => intro k _; rfl
  | succ n ih =>
    intro k h
    have hk : p (t.getD k []) = false := h k (Nat.le_refl k) (by omega)
    simp only [flagLoop, hk]
    exact ih (k + 1) (fun j h1 h2 => h j (by omega) (by omega))

theorem flagLoop_hit (p : WString → Bool) (t : List WString) :
    ∀ (remaining k k0 : Nat), k ≤ k0 → k0 < k + remaining →
      (∀ j, k ≤ j → j < k0 → p (t.getD j []) = false) →
      p (t.getD k0 []) = true →
      flagLoop p t remaining k = (true, (t.set k0 []).set (k0 + 1) []) := by
  intro remaining
  induction remaining with
  | zero => intro k k0 h1 h2; omega
  | succ n ih =>
    intro k k0 h1 h2 hmin hp
    by_cases hk : k = k0
    · subst hk
      simp only [flagLoop, hp, if_true, set_guard]
    · have hkf : p (t.getD k []) = false := hmin k (Nat.le_refl k) (by omega)
      simp only [flagLoop, hkf]
      exact ih (k + 1) k0 (by omega) (by omega) (fun j h3 h4 => hmin j (by omega) h4) hp

theorem namedLoop_miss (p : WString → Bool) (t : List WString) :
    ∀ (remaining k : Nat),
      (∀ j, k ≤ j → j < k + remaining → ¬ (p (t.getD j []) = true ∧ j + 2 < t.length)) →
      namedLoop p t remaining k = (false, [], t) := by
  intro remaining
  induction remaining with
  | zero => intro k _; rfl
  | succ n ih =>
    intro k h
    have hk := h k (Nat.le_refl k) (by omega)
    simp only [namedLoop, hk, if_false]
    exact ih (k + 1) (fun j h1 h2 => h j (by omega) (by omega))

theorem namedLoop_hit (p : WString → Bool) (t : List WString) :
    ∀ (remaining k k0 : Nat), k ≤ k0 → k0 < k + remaining →
      (∀ j, k ≤ j → j < k0 → ¬ (p (t.getD j []) = true ∧ j + 2 < t.length)) →
      p (t.getD k0 []) = true → k0 + 2 < t.length →
      namedLoop p t remaining k =
        (true, t.getD (k0 + 2) [],
          ((((t.set k0 []).set (k0 + 1) []).set (k0 + 2) []).set (k0 + 3) [])) := by
  intro remaining
  induction remaining with
  | zero => intro k k0 h1 h2; omega
  | succ n ih =>
    intro k k0 h1 h2 hmin hp hlen
    by_cases hk : k = k0
    · subst hk
      have hv : (((t.set k []).set (k + 1) []).getD (k + 2) []) = t.getD (k + 2) [] := by
        simp [List.getD_eq_getElem?_getD, getElem?_set_nil]
      simp only [namedLoop, hp, hlen, and_self, if_true, set_guard, hv]
    · have hkf := hmin k (Nat.le_refl k) (by omega)
      simp only [namedLoop, hkf, if_false]
      exact ih (k + 1) k0 (by omega) (by omega) (fun j h3 h4 => hmin j (by omega) h4) hp hlen

/-! ## The positional overload -/

theorem GetArgumentIndex_eq (t : List WString) (i : Nat) (hi : i < 2 ^ 30) :
    GetArgumentIndex t (i : Int) =
      if 2 * i < t.length then
        (true, t.getD (2 * i) [], (t.set (2 * i) []).set (2 * i + 1) [])
      else (false, [], t) := by
  have h2 : ((i : Int) * 2) = ((2 * i : Nat) : Int) := by push_cast; ring
  have hlt : 2 * i < 2 ^ 31 := by norm_num at hi ⊢; omega
  have hlt1 : 2 * i + 1 < 2 ^ 31 := by norm_num at hi ⊢; omega
  have w2 : wrapInt ((i : Int) * 2) = ((2 * i : Nat) : Int) := by
    rw [h2]
    exact wrapInt_small _ (Int.natCast_nonneg _) (by exact_mod_cast hlt)
  have w3 : wrapInt (((2 * i : Nat) : Int) + 1) = ((2 * i + 1 : Nat) : Int) := by
    have h3 : (((2 * i : Nat) : Int) + 1) = ((2 * i + 1 : Nat) : Int) := by push_cast; ring
    rw [h3]
    exact wrapInt_small _ (Int.natCast_nonneg _) (by exact_mod_cast hlt1)
  unfold GetArgumentIndex
  simp only [w2, w3, toSizeT_small _ hlt, toSizeT_small _ hlt1, set_guard]

theorem cleared2_getElem? (t : List WString) (k j : Nat) :
    ((t.set k []).set (k + 1) [])[j]? =
      if j = k ∨ j = k + 1 then t[j]?.map (fun _ => []) else t[j]? := by
  rw [getElem?_set_nil, getElem?_set_nil]
  by_cases h1 : j = k + 1
  · have h2 : j ≠ k := by omega
    simp [h1]
  · by_cases h2 : j = k
    · simp [h2]
    · simp [h1, h2]

theorem cleared4_getElem? (t : List WString) (k j : Nat) :
    ((((t.set k []).set (k + 1) []).set (k + 2) []).set (k + 3) [])[j]? =
      if k ≤ j ∧ j ≤ k + 3 then t[j]?.map (fun _ => []) else t[j]? := by
  rw [getElem?_set_nil, getElem?_set_nil, getElem?_set_nil, getElem?_set_nil]
  by_cases h3 : j = k + 3
  · simp [h3]
  · by_cases h2 : j = k + 2
    · simp [h2]
    · by_cases h1 : j = k + 1
      · simp [h1]
      · by_cases h0 : j = k
        · simp [h0]
        · have hr : ¬ (k ≤ j ∧ j ≤ k + 3) := by omega
          simp [h0, h1, h2, h3, hr]

/-! ## Claims on the tokenizer settled by evaluation -/

/-- C1: the round trip `CollapseArguments (ParseArguments s) = s` does not hold
for every input. Text that follows the last closed argument is never pushed: on
`abc ` the trailing space is lost, and on `say "hello world` everything from the
unmatched quote on is lost. -/
theorem C1_round_trip_loses_tail :
    ParseArguments "abc ".toList = ["abc".toList] ∧
    CollapseArguments (ParseArguments "abc ".toList) = "abc".toList ∧
    CollapseArguments (ParseArguments "abc ".toList) ≠ "abc ".toList ∧
    CollapseArguments (ParseArguments "say \"hello world".toList) = "say ".toList ∧
    CollapseArguments (ParseArguments "say \"hello world".toList)
      ≠ "say \"hello world".toList := by
  decide

/-- C2: with a quote still open at the end of the input, `ParseArguments` does
not return the open argument as its last token. On `say "hello world` the result
is `say` and one space: the last token is the space, and the text
`"hello world` is in no token. -/
theorem C2_unterminated_quote_dropped :
    ParseArguments "say \"hello world".toList = ["say".toList, " ".toList] ∧
    (ParseArguments "say \"hello world".toList).getLast? ≠ some "\"hello world".toList ∧
    (∀ tok ∈ ParseArguments "say \"hello world".toList, '"' ∉ tok) := by
  decide

/-- C10: a run of whitespace after the last argument is not appended as a final
token. On `abc` followed by two spaces the only token is `abc`. -/
theorem C10_trailing_whitespace_dropped :
    ParseArguments "abc  ".toList = ["abc".toList] ∧
    (ParseArguments "abc  ".toList).getLast? ≠ some "  ".toList := by
  decide

/-- C7: reparsing a fresh tokenization is not always the identity. On `a "b`
the tokenization is `a` and one space (the open quoted argument is not pushed);
it collapses to `a` and a space, whose tokenization is `a` alone. -/
theorem C7_reparse_changes_tokens :
    ParseArguments "a \"b".toList = ["a".toList, " ".toList] ∧
    CollapseArguments (ParseArguments "a \"b".toList) = "a ".toList ∧
    ReparseArguments (ParseArguments "a \"b".toList) = ["a".toList] ∧
    ReparseArguments (ParseArguments "a \"b".toList) ≠ ParseArguments "a \"b".toList := by
  decide

/-! ## The extractor contracts -/

/-- C3: contract of the positional overload `GetArgument(args, index, value)`,
for an index `i` whose double is an `int` (`i < 2^30`). It returns true exactly
when `2*i < length t`. Then `value` is the former content of `t[2i]`, the slots
`2i` and (if it exists) `2i+1` are empty, and the length and every other slot are
unchanged. Otherwise it returns false, `value` is empty and `t` is unchanged. -/
theorem C3_positional_contract (t : List WString) (i : Nat) (hi : i < 2 ^ 30) :
    ((GetArgumentIndex t (i : Int)).1 = true ↔ 2 * i < t.length) ∧
    (2 * i < t.length →
      ∃ value args, GetArgumentIndex t (i : Int) = (true, value, args) ∧
        t[2 * i]? = some value ∧ args.length = t.length ∧
        ∀ j, args[j]? =
          if j = 2 * i ∨ j = 2 * i + 1 then t[j]?.map (fun _ => []) else t[j]?) ∧
    (¬ 2 * i < t.length → GetArgumentIndex t (i : Int) = (false, [], t)) := by
  rw [GetArgumentIndex_eq t i hi]
  refine ⟨?_, ?_, ?_⟩
  · by_cases h : 2 * i < t.length <;> simp [h]
  · intro h
    refine ⟨t.getD (2 * i) [], (t.set (2 * i) []).set (2 * i + 1) [], ?_, ?_, ?_, ?_⟩
    · simp [h]
    · exact getD_eq_of_getElem? t (2 * i) h
    · simp
    · intro j
      exact cleared2_getElem? t (2 * i) j
  · intro h
    simp [h]

/-- Witness of C3 on the three slots `a`, one space, `b` and index 1. -/
theorem C3_positional_contract_witness :
    (1 : Nat) < 2 ^ 30 ∧
    ((GetArgumentIndex ["a".toList, " ".toList, "b".toList] ((1 : Nat) : Int)).1 = true ↔
      2 * 1 < ["a".toList, " ".toList, "b".toList].length) :=
  ⟨by decide, (C3_positional_contract ["a".toList, " ".toList, "b".toList] 1 (by decide)).1⟩

/-- C4: success of the named-value overload `GetArgument(args, pattern, value)`.
If `k` is the smallest offset with `t[k]` matching the pattern and
`k + 2 < length t`, the call returns true, `value` is the former content of
`t[k+2]`, the slots `k`, `k+1`, `k+2` and (if it exists) `k+3` are empty, and the
length and every other slot are unchanged. On the tokens of `--out file.txt`,
every pattern that matches `--out` gives true and `file.txt`, and what is left
collapses to the empty string. -/
theorem C4_named_value_success (t : List WString) (p : WString → Bool) (k : Nat)
    (hk : k + 2 < t.length) (hp : p (t.getD k []) = true)
    (hmin : ∀ j, j < k → ¬ (p (t.getD j []) = true ∧ j + 2 < t.length)) :
    (∃ value args, GetArgumentNamed t p = (true, value, args) ∧
        t[k + 2]? = some value ∧ args.length = t.length ∧
        ∀ j, args[j]? = if k ≤ j ∧ j ≤ k + 3 then t[j]?.map (fun _ => []) else t[j]?) ∧
    (∀ q : WString → Bool, q "--out".toList = true →
      ∃ args, GetArgumentNamed (ParseArguments "--out file.txt".toList) q
          = (true, "file.txt".toList, args) ∧
        CollapseArguments args = []) := by
  constructor
  · refine ⟨t.getD (k + 2) [],
      ((((t.set k []).set (k + 1) []).set (k + 2) []).set (k + 3) []), ?_, ?_, ?_, ?_⟩
    · exact namedLoop_hit p t t.length 0 k (Nat.zero_le k) (by omega)
        (fun j _ h => hmin j h) hp hk
    · exact getD_eq_of_getElem? t (k + 2) (by omega)
    · simp
    · intro j
      exact cleared4_getElem? t k j
  · intro q hq
    have hparse : ParseArguments "--out file.txt".toList
        = ["--out".toList, " ".toList, "file.txt".toList] := by decide
    refine ⟨[[], [], []], ?_, by decide⟩
    rw [hparse]
    exact namedLoop_hit q _ 3 0 0 (Nat.le_refl 0) (by decide)
      (fun j _ h => absurd h (Nat.not_lt_zero j)) hq (by decide)

/-- Witness of C4: the tokens of `--out file.txt` with the literal pattern
`--OUT` and `k = 0`. -/
theorem C4_named_value_success_witness :
    (0 + 2 < (ParseArguments "--out file.txt".toList).length ∧
      literalPattern "--OUT".toList
        ((ParseArguments "--out file.txt".toList).getD 0 []) = true) ∧
    ∃ value args,
      GetArgumentNamed (ParseArguments "--out file.txt".toList)
          (literalPattern "--OUT".toList) = (true, value, args) ∧
        (ParseArguments "--out file.txt".toList)[0 + 2]? = some value ∧
        args.length = (ParseArguments "--out file.txt".toList).length ∧
        ∀ j, args[j]? =
          if 0 ≤ j ∧ j ≤ 0 + 3 then
            (ParseArguments "--out file.txt".toList)[j]?.map (fun _ => [])
          else (ParseArguments "--out file.txt".toList)[j]? :=
  ⟨⟨by decide, by decide⟩,
    (C4_named_value_success (ParseArguments "--out file.txt".toList)
      (literalPattern "--OUT".toList) 0 (by decide) (by decide)
      (fun j h => absurd h (Nat.not_lt_zero j))).1⟩

/-- C5: the named-value overload without a value. If no offset `k` has both
`t[k]` matching the pattern and `k + 2 < length t`, the call returns false,
`value` is empty and `t` is unchanged: a match with fewer than two tokens after
it is passed over without any change. On the tokens of `--name`, every pattern
(also one that matches `--name`) gives false and an empty value, and the
sequence still collapses to `--name`. -/
theorem C5_named_value_absent (t : List WString) (p : WString → Bool)
    (h : ∀ k, ¬ (p (t.getD k []) = true ∧ k + 2 < t.length)) :
    GetArgumentNamed t p = (false, [], t) ∧
    (∀ q : WString → Bool,
      GetArgumentNamed (ParseArguments "--name".toList) q
          = (false, [], ParseArguments "--name".toList) ∧
        CollapseArguments (ParseArguments "--name".toList) = "--name".toList) := by
  constructor
  · exact namedLoop_miss p t t.length 0 (fun j _ _ => h j)
  · intro q
    refine ⟨?_, by decide⟩
    have hparse : ParseArguments "--name".toList = ["--name".toList] := by decide
    rw [hparse]
    exact namedLoop_miss q _ 1 0 (fun j _ _ hh => absurd hh.2 (by simp))

/-- Witness of C5: the tokens of `--name` and the literal pattern `--name`,
which matches the only token. -/
theorem C5_named_value_absent_witness :
    literalPattern "--name".toList ((ParseArguments "--name".toList).getD 0 []) = true ∧
    GetArgumentNamed (ParseArguments "--name".toList) (literalPattern "--name".toList)
      = (false, [], ParseArguments "--name".toList) :=
  ⟨by decide,
    (C5_named_value_absent (ParseArguments "--name".toList) (literalPattern "--name".toList)
      (fun k hh => absurd hh.2 (by
        have hparse : ParseArguments "--name".toList = ["--name".toList] := by decide
        rw [hparse]; simp))).1⟩

/-- C6: contract of the flag overload `GetArgument(args, pattern)`. It returns
true exactly when some token matches the pattern; then, with `k` the first
matching offset, the slots `k` and (if it exists) `k+1` are empty and the length
and every other slot are unchanged; with no match it returns false and `t` is
unchanged. On the tokens of `run --verbose now`, a pattern that matches
`--verbose` (and neither `run` nor a space) gives true, and what is left
collapses to `run now`. -/
theorem C6_flag_contract (t : List WString) (p : WString → Bool) :
    ((GetArgumentFlag t p).1 = true ↔ ∃ k, k < t.length ∧ p (t.getD k []) = true) ∧
    (∀ k, k < t.length → p (t.getD k []) = true →
      (∀ j, j < k → p (t.getD j []) = false) →
      ∃ args, GetArgumentFlag t p = (true, args) ∧ args.length = t.length ∧
        ∀ j, args[j]? = if j = k ∨ j = k + 1 then t[j]?.map (fun _ => []) else t[j]?) ∧
    ((∀ k, k < t.length → p (t.getD k []) = false) → GetArgumentFlag t p = (false, t)) ∧
    (∀ q : WString → Bool, q "--verbose".toList = true → q "run".toList = false →
      q " ".toList = false →
      ∃ args, GetArgumentFlag (ParseArguments "run --verbose now".toList) q = (true, args) ∧
        CollapseArguments args = "run now".toList) := by
  have hit : ∀ k, k < t.length → p (t.getD k []) = true →
      (∀ j, j < k → p (t.getD j []) = false) →
      GetArgumentFlag t p = (true, (t.set k []).set (k + 1) []) := fun k hk hp hmin =>
    flagLoop_hit p t t.length 0 k (Nat.zero_le k) (by omega) (fun j _ h => hmin j h) hp
  have miss : (∀ k, k < t.length → p (t.getD k []) = false) →
      GetArgumentFlag t p = (false, t) := fun h =>
    flagLoop_miss p t t.length 0 (fun j _ h2 => h j (by omega))
  refine ⟨?_, ?_, miss, ?_⟩
  · by_cases hex : ∃ k, k < t.length ∧ p (t.getD k []) = true
    · have hmin : ∀ j, j < Nat.find hex → p (t.getD j []) = false := by
        intro j hj
        have hn := Nat.find_min hex hj
        have hjl : j < t.length := Nat.lt_trans hj (Nat.find_spec hex).1
        cases hpj : p (t.getD j []) with
        | false => rfl
        | true => exact absurd ⟨hjl, hpj⟩ hn
      rw [hit (Nat.find hex) (Nat.find_spec hex).1 (Nat.find_spec hex).2 hmin]
      exact ⟨fun _ => hex, fun _ => rfl⟩
    · have hnone : ∀ k, k < t.length → p (t.getD k []) = false := by
        intro k hk
        cases hpk : p (t.getD k []) with
        | false => rfl
        | true => exact absurd ⟨k, hk, hpk⟩ hex
      rw [miss hnone]
      exact ⟨fun hf => absurd hf Bool.false_ne_true, fun he => absurd he hex⟩
  · intro k hk hp hmin
    refine ⟨(t.set k []).set (k + 1) [], hit k hk hp hmin, by simp, ?_⟩
    intro j
    exact cleared2_getElem? t k j
  · intro q hv hr hs
    have hparse : ParseArguments "run --verbose now".toList
        = ["run".toList, " ".toList, "--verbose".toList, " ".toList, "now".toList] := by
      decide
    refine ⟨["run".toList, " ".toList, [], [], "now".toList], ?_, by decide⟩
    rw [hparse]
    refine flagLoop_hit q _ 5 0 2 (by decide) (by decide) ?_ hv
    intro j _ hj
    have hj01 : j = 0 ∨ j = 1 := by omega
    rcases hj01 with h0 | h1
    · subst h0; exact hr
    · subst h1; exact hs

/-! ## Shape of the word matches -/

theorem getElem?_append_here (pre : WString) (c : Char) (cs : WString) :
    (pre ++ c :: cs)[pre.length]? = some c := by
  rw [List.getElem?_append_right (Nat.le_refl _)]
  simp

theorem wordMatches_shape (x : WString) :
    (∀ (s pre : WString) (gap e : Nat), s = pre ++ x → e + gap ≤ pre.length →
        SepRange s e pre.length → WordsAfter s gap e (wordMatches x pre.length none)) ∧
    (∀ (s pre : WString) (st : Nat), s = pre ++ x → st < pre.length →
        (∀ i, st ≤ i → i < pre.length → ∃ c, s[i]? = some c ∧ isWordChar c = true) →
        ∃ w ws, wordMatches x pre.length (some st) = w :: ws ∧ w.position = st ∧
          WordAt s w ∧ WordsAfter s 1 (w.position + w.length) ws) := by
  induction x with
  | nil =>
    constructor
    · intro s pre gap e _ _ _
      simp [wordMatches, WordsAfter]
    · intro s pre st hs hst hw
      refine ⟨⟨st, pre.length - st⟩, [], by simp [wordMatches], rfl, ?_, by simp [WordsAfter]⟩
      have hlen : s.length = pre.length := by simp [hs]
      refine ⟨by simp; omega, by simp; omega, hw st (Nat.le_refl _) hst, ?_⟩
      have := hw (pre.length - 1) (by omega) (by omega)
      have e1 : st + (pre.length - st) - 1 = pre.length - 1 := by omega
      simpa [e1] using this
  | cons c cs ih =>
    obtain ⟨ihA, ihB⟩ := ih
    have hpre : ∀ pre : WString, (pre ++ [c]).length = pre.length + 1 := by simp
    constructor
    · intro s pre gap e hs he hsep
      have hs' : s = (pre ++ [c]) ++ cs := by simp [hs]
      have hc : s[pre.length]? = some c := by rw [hs]; exact getElem?_append_here pre c cs
      by_cases hw : isWordChar c = true
      · simp only [wordMatches, hw, if_true]
        obtain ⟨w, ws, heq, hpos, hwat, hrest⟩ := ihB s (pre ++ [c]) pre.length hs'
          (by simp) (by
            intro i h1 h2
            have : i = pre.length := by simp at h2; omega
            subst this
            exact ⟨c, hc, hw⟩)
        rw [hpre] at heq
        rw [heq]
        refine ⟨by omega, ?_, hwat, hrest⟩
        rw [hpos]; exact hsep
      · have hw' : isWordChar c = false := by simpa using hw
        simp only [wordMatches, hw']
        have := ihA s (pre ++ [c]) gap e hs' (by simp; omega) (by
          intro i d h1 h2 h3
          by_cases hi : i < pre.length
          · exact hsep i d h1 hi h3
          · have : i = pre.length := by simp at h2; omega
            subst this
            rw [hc] at h3
            cases h3
            exact hw')
        rw [hpre] at this
        simpa using this
    · intro s pre st hs hst hwr
      have hs' : s = (pre ++ [c]) ++ cs := by simp [hs]
      have hc : s[pre.length]? = some c := by rw [hs]; exact getElem?_append_here pre c cs
      by_cases hw : isWordChar c = true
      · simp only [wordMatches, hw, if_true]
        have := ihB s (pre ++ [c]) st hs' (by simp; omega) (by
          intro i h1 h2
          by_cases hi : i < pre.length
          · exact hwr i h1 hi
          · have : i = pre.length := by simp at h2; omega
            subst this
            exact ⟨c, hc, hw⟩)
        rw [hpre] at this
        exact this
      · have hw' : isWordChar c = false := by simpa using hw
        simp only [wordMatches, hw']
        refine ⟨⟨st, pre.length - st⟩, _, rfl, rfl, ?_, ?_⟩
        · have hlen : pre.length < s.length := by simp [hs]
          refine ⟨by simp; omega, by simp; omega, hwr st (Nat.le_refl _) hst, ?_⟩
          have := hwr (pre.length - 1) (by omega) (by omega)
          have e1 : st + (pre.length - st) - 1 = pre.length - 1 := by omega
          simpa [e1] using this
        · have e2 : st + (pre.length - st) = pre.length := by omega
          have := ihA s (pre ++ [c]) 1 pre.length hs' (by simp) (by
            intro i d h1 h2 h3
            have : i = pre.length := by simp at h2; omega
            subst this
            rw [hc] at h3
            cases h3
            exact hw')
          rw [hpre] at this
          simpa [e2] using this

theorem iterWord_shape (s : WString) : WordsAfter s 0 0 (iterWord s) := by
  have := (wordMatches_shape s).1 s [] 0 0 (by simp) (by simp) (by
    intro i c h1 h2; simp at h2)
  simpa [iterWord] using this

/-! ## Tokens cut out by `substr` -/

theorem substr_length (s : WString) (a n : Nat) (h : a + n ≤ s.length) :
    (substr s a n).length = n := by
  simp [substr]; omega

theorem substr_getElem? (s : WString) (a n i : Nat) (hi : i < n) :
    (substr s a n)[i]? = s[a + i]? := by
  simp [substr, List.getElem?_take, hi]

theorem substr_isSeparatorToken (s : WString) (e p : Nat) (h1 : e < p) (h2 : p ≤ s.length)
    (hsep : SepRange s e p) : isSeparatorToken (substr s e (p - e)) = true := by
  have hlen : (substr s e (p - e)).length = p - e := substr_length s e (p - e) (by omega)
  have hne : (substr s e (p - e)) ≠ [] := by
    intro h; rw [h] at hlen; simp at hlen; omega
  simp only [isSeparatorToken, Bool.and_eq_true, Bool.not_eq_true', List.isEmpty_eq_false,
    List.all_eq_true]
  refine ⟨hne, ?_⟩
  intro c hc
  obtain ⟨i, hi, hget⟩ := List.getElem_of_mem hc
  rw [hlen] at hi
  have h3 : (substr s e (p - e))[i]? = some c := by
    rw [List.getElem?_eq_getElem (by rw [hlen]; exact hi), hget]
  rw [substr_getElem? s e (p - e) i hi] at h3
  have := hsep (e + i) c (by omega) (by omega) h3
  simp [this]

theorem substr_isArgumentToken (s : WString) (a f : Nat) (h1 : a < f) (h2 : f ≤ s.length)
    (hlast : ∃ c, s[f - 1]? = some c ∧ isWordChar c = true) :
    isArgumentToken (substr s a (f - a)) = true := by
  have hlen : (substr s a (f - a)).length = f - a := substr_length s a (f - a) (by omega)
  obtain ⟨c, hc, hw⟩ := hlast
  have hl : (substr s a (f - a)).getLast? = some c := by
    rw [List.getLast?_eq_getElem?, hlen, substr_getElem? s a (f - a) (f - a - 1) (by omega)]
    have : a + (f - a - 1) = f - 1 := by omega
    rw [this, hc]
  simp [isArgumentToken, hl, hw]

/-! ## Alternation of the tokens -/

theorem alternates_push (out : List WString) (tok : WString) (hout : Alternates out)
    (htok : (out.length % 2 = 0 → isArgumentToken tok = true) ∧
      (out.length % 2 = 1 → isSeparatorToken tok = true)) :
    Alternates (out ++ [tok]) := by
  intro i t h
  by_cases hi : i < out.length
  · rw [List.getElem?_append_left hi] at h
    exact hout i t h
  · rw [List.getElem?_append_right (Nat.le_of_not_lt hi)] at h
    have h0 : i - out.length = 0 := by
      by_contra hne
      have : [tok][i - out.length]? = none := by
        apply List.getElem?_eq_none; simp; omega
      rw [this] at h; cases h
    rw [h0] at h
    simp at h
    have hi2 : i = out.length := by omega
    subst hi2; subst h
    exact htok

theorem WordsAfter_weaken (s : WString) (e : Nat) (R : List Match)
    (h : WordsAfter s 1 e R) : WordsAfter s 0 e R := by
  cases R with
  | nil => trivial
  | cons w R =>
    obtain ⟨h1, h2, h3, h4⟩ := h
    exact ⟨by omega, h2, h3, h4⟩

theorem parseStep_keeps (s : WString) (w : Match) (R : List Match) (st : ParseState)
    (h : AltInv s (w :: R) st) : AltInv s R (parseStep s w R st) := by
  obtain ⟨halt, hcase⟩ := h
  rcases hcase with ⟨hlen, hle, hws⟩ | ⟨hlen, hp0, hws⟩
  · obtain ⟨h1, _, hwat, hrest⟩ := hws
    obtain ⟨hw1, hw2, _, hwlast⟩ := hwat
    have hno : ¬ st.pos_word_1 < st.pos_word_0 := by omega
    have harg : isArgumentToken
        (substr s st.pos_word_0 (w.position + w.length - st.pos_word_0)) = true :=
      substr_isArgumentToken s _ _ (by omega) hw2 hwlast
    unfold parseStep
    simp only [hno, if_false]
    split
    · refine ⟨alternates_push _ _ halt ⟨fun _ => harg, fun h => by omega⟩, Or.inr ⟨?_, rfl, hrest⟩⟩
      simp; omega
    · exact ⟨halt, Or.inl ⟨hlen, by simp; omega, WordsAfter_weaken _ _ _ hrest⟩⟩
  · obtain ⟨h1, hsep, hwat, hrest⟩ := hws
    obtain ⟨hw1, hw2, _, hwlast⟩ := hwat
    have hp0' : st.pos_word_0 = w.position := hp0
    have hyes : st.pos_word_1 < st.pos_word_0 := by omega
    have hsepTok : isSeparatorToken
        (substr s st.pos_word_1 (st.pos_word_0 - st.pos_word_1)) = true :=
      substr_isSeparatorToken s _ _ hyes (by omega) (by rw [hp0']; exact hsep)
    have harg : isArgumentToken
        (substr s st.pos_word_0 (w.position + w.length - st.pos_word_0)) = true :=
      substr_isArgumentToken s _ _ (by omega) hw2 hwlast
    have halt1 := alternates_push _ _ halt ⟨fun h => by omega, fun _ => hsepTok⟩
    unfold parseStep
    simp only [hyes, if_true]
    split
    · refine ⟨alternates_push _ _ halt1 ⟨fun _ => harg, fun h => by simp at h; omega⟩,
        Or.inr ⟨?_, rfl, hrest⟩⟩
      simp; omega
    · exact ⟨halt1, Or.inl ⟨by simp; omega, by simp; omega, WordsAfter_weaken _ _ _ hrest⟩⟩

theorem parseLoop_alternates (s : WString) :
    ∀ (R : List Match) (st : ParseState), AltInv s R st → Alternates (parseLoop s R st) := by
  intro R
  induction R with
  | nil => intro st h; exact h.1
  | cons w R ih =>
    intro st h
    exact ih _ (parseStep_keeps s w R st h)

theorem ParseArguments_alternates (s : WString) : Alternates (ParseArguments s) := by
  apply parseLoop_alternates
  refine ⟨?_, Or.inl ⟨rfl, Nat.le_refl _, iterWord_shape s⟩⟩
  intro i t h
  simp at h

theorem argument_not_separator (tok : WString) (h : isArgumentToken tok = true) :
    isSeparatorToken tok = false := by
  unfold isArgumentToken at h
  cases hl : tok.getLast? with
  | none => rw [hl] at h; cases h
  | some c =>
    rw [hl] at h
    have hmem : c ∈ tok := List.mem_of_getLast?_eq_some hl
    cases hs : isSeparatorToken tok with
    | false => rfl
    | true =>
      simp only [isSeparatorToken, Bool.and_eq_true, List.all_eq_true] at hs
      have := hs.2 c hmem
      have h' : isWordChar c = true := h
      simp [h'] at this

/-- C8, the claim as stated, fails: the token at an odd offset need not be a run
of whitespace. On `a=b` the tokens are `a`, `=`, `b`, and `=` is no whitespace. -/
theorem C8_odd_token_not_whitespace :
    ParseArguments "a=b".toList = ["a".toList, "=".toList, "b".toList] ∧
    ¬ (∀ (s : WString) (i : Nat) (tok : WString), (ParseArguments s)[i]? = some tok →
        (i % 2 = 1 → isWhitespaceToken tok = true)) := by
  refine ⟨by decide, ?_⟩
  intro h
  have h1 := h "a=b".toList 1 "=".toList (by decide) (by decide)
  revert h1
  decide

/-- C8 amended: for every input the tokens of `ParseArguments` alternate,
starting with an argument token. A token at an even offset is an argument token
(non-empty, ending in a character that is neither whitespace nor `=`), a token
at an odd offset is a separator token (a non-empty run of whitespace characters
and `=` signs only); no token is both, so two neighbours are never two
separator tokens (in particular never two whitespace tokens) and never two
argument tokens. -/
theorem C8_alternation (s : WString) (i : Nat) (tok : WString)
    (h : (ParseArguments s)[i]? = some tok) :
    (i % 2 = 0 → isArgumentToken tok = true ∧ isSeparatorToken tok = false) ∧
    (i % 2 = 1 → isSeparatorToken tok = true ∧ isArgumentToken tok = false) ∧
    (∀ tok', (ParseArguments s)[i + 1]? = some tok' →
      ¬ (isSeparatorToken tok = true ∧ isSeparatorToken tok' = true) ∧
      ¬ (isWhitespaceToken tok = true ∧ isWhitespaceToken tok' = true) ∧
      ¬ (isArgumentToken tok = true ∧ isArgumentToken tok' = true)) := by
  have halt := ParseArguments_alternates s
  have hkind : ∀ j t, (ParseArguments s)[j]? = some t →
      (j % 2 = 0 → isArgumentToken t = true ∧ isSeparatorToken t = false) ∧
      (j % 2 = 1 → isSeparatorToken t = true ∧ isArgumentToken t = false) := by
    intro j t hj
    constructor
    · intro h0
      exact ⟨(halt j t hj).1 h0, argument_not_separator t ((halt j t hj).1 h0)⟩
    · intro h1
      refine ⟨(halt j t hj).2 h1, ?_⟩
      cases ha : isArgumentToken t with
      | false => rfl
      | true =>
        have := argument_not_separator t ha
        rw [(halt j t hj).2 h1] at this
        cases this
  have hws : ∀ t : WString, isWhitespaceToken t = true → isSeparatorToken t = true := by
    intro t ht
    simp only [isWhitespaceToken, Bool.and_eq_true, List.all_eq_true] at ht
    simp only [isSeparatorToken, Bool.and_eq_true, List.all_eq_true]
    refine ⟨ht.1, ?_⟩
    intro c hc
    simp [isWordChar, ht.2 c hc]
  refine ⟨(hkind i tok h).1, (hkind i tok h).2, ?_⟩
  intro tok' h'
  have hsep : ¬ (isSeparatorToken tok = true ∧ isSeparatorToken tok' = true) := by
    rintro ⟨a, b⟩
    rcases Nat.mod_two_eq_zero_or_one i with h0 | h1
    · rw [((hkind i tok h).1 h0).2] at a; cases a
    · rw [((hkind (i + 1) tok' h').1 (by omega)).2] at b; cases b
  refine ⟨hsep, fun ⟨a, b⟩ => hsep ⟨hws _ a, hws _ b⟩, ?_⟩
  rintro ⟨a, b⟩
  rcases Nat.mod_two_eq_zero_or_one i with h0 | h1
  · rw [((hkind (i + 1) tok' h').2 (by omega)).2] at b; cases b
  · rw [((hkind i tok h).2 h1).2] at a; cases a

/-- Witness of C8 amended: the token `=` at offset 1 of the tokens of `a=b`. -/
theorem C8_alternation_witness :
    (ParseArguments "a=b".toList)[1]? = some "=".toList ∧
    (1 % 2 = 1 → isSeparatorToken "=".toList = true ∧ isArgumentToken "=".toList = false) :=
  ⟨by decide, (C8_alternation "a=b".toList 1 "=".toList (by decide)).2.1⟩

/-! ## The word matches of a line built from pieces -/

theorem isSpace_not_word (c : Char) (h : isSpace c = true) : isWordChar c = false := by
  simp [isWordChar, h]

theorem isSpace_ne_quote (c : Char) (h : isSpace c = true) : c ≠ '"' := by
  intro e; subst e; revert h; decide

theorem isSpace_ne_backslash (c : Char) (h : isSpace c = true) : c ≠ '\\' := by
  intro e; subst e; revert h; decide

theorem wordMatches_split (x : WString) (c : Char) (y : WString) (hc : isWordChar c = false) :
    ∀ (pos : Nat) (cur : Option Nat),
      wordMatches (x ++ c :: y) pos cur =
        wordMatches x pos cur ++ wordMatches y (pos + x.length + 1) none := by
  induction x with
  | nil =>
    intro pos cur
    cases cur <;> simp [wordMatches, hc]
  | cons d x ih =>
    intro pos cur
    have e : pos + (d :: x).length + 1 = pos + 1 + x.length + 1 := by simp; omega
    cases cur with
    | none =>
      by_cases hd : isWordChar d = true
      · rw [List.cons_append]
        simp only [wordMatches, hd, if_true]
        rw [ih (pos + 1) (some pos), e]
      · have hd' : isWordChar d = false := by simpa using hd
        rw [List.cons_append]
        simp only [wordMatches, hd']
        rw [ih (pos + 1) none, e]
        simp
    | some st =>
      by_cases hd : isWordChar d = true
      · rw [List.cons_append]
        simp only [wordMatches, hd, if_true]
        rw [ih (pos + 1) (some st), e]
      · have hd' : isWordChar d = false := by simpa using hd
        rw [List.cons_append]
        simp only [wordMatches, hd']
        rw [ih (pos + 1) none, e]
        simp

theorem wordMatches_skip (w : WString) (y : WString) (hw : ∀ c ∈ w, isWordChar c = false) :
    ∀ pos : Nat, wordMatches (w ++ y) pos none = wordMatches y (pos + w.length) none := by
  induction w with
  | nil => intro pos; simp
  | cons c w ih =>
    intro pos
    have hc : isWordChar c = false := hw c (List.mem_cons_self _ _)
    have e : pos + (c :: w).length = pos + 1 + w.length := by simp; omega
    simp only [List.cons_append, wordMatches, hc, e]
    simpa using ih (fun d hd => hw d (List.mem_cons_of_mem _ hd)) (pos + 1)

theorem wordMatches_open_word (a : WString) (ha : ∀ c ∈ a, isWordChar c = true) :
    ∀ (pos st : Nat), wordMatches a pos (some st) = [⟨st, pos + a.length - st⟩] := by
  induction a with
  | nil => intro pos st; simp [wordMatches]
  | cons c a ih =>
    intro pos st
    have hc : isWordChar c = true := ha c (List.mem_cons_self _ _)
    have e : pos + (c :: a).length = pos + 1 + a.length := by simp; omega
    simp only [wordMatches, hc, if_true, e]
    exact ih (fun d hd => ha d (List.mem_cons_of_mem _ hd)) (pos + 1) st

theorem wordMatches_word (a : WString) (hne : a ≠ []) (ha : ∀ c ∈ a, isWordChar c = true)
    (pos : Nat) : wordMatches a pos none = [⟨pos, a.length⟩] := by
  cases a with
  | nil => exact absurd rfl hne
  | cons c a =>
    have hc : isWordChar c = true := ha c (List.mem_cons_self _ _)
    simp only [wordMatches, hc, if_true]
    rw [wordMatches_open_word a (fun d hd => ha d (List.mem_cons_of_mem _ hd))]
    simp; omega

theorem wordMatches_open_head (x : WString) :
    ∀ (pos st : Nat), ∃ w ws, wordMatches x pos (some st) = w :: ws ∧ w.position = st := by
  induction x with
  | nil => intro pos st; exact ⟨_, _, rfl, rfl⟩
  | cons c x ih =>
    intro pos st
    by_cases hc : isWordChar c = true
    · simp only [wordMatches, hc, if_true]; exact ih (pos + 1) st
    · have hc' : isWordChar c = false := by simpa using hc
      simp only [wordMatches, hc']; exact ⟨_, _, rfl, rfl⟩

theorem nextWordPosition_word_start (c : Char) (x : WString) (hc : isWordChar c = true)
    (pos : Nat) : nextWordPosition (wordMatches (c :: x) pos none) = pos := by
  simp only [wordMatches, hc, if_true]
  obtain ⟨w, ws, h, hp⟩ := wordMatches_open_head x (pos + 1) pos
  rw [h]; exact hp

theorem QuotedWords_weaken (P P' F : Nat) (h : P' ≤ P) :
    ∀ L : List Match, QuotedWords P F L → QuotedWords P' F L := by
  intro L
  induction L with
  | nil => intro h; exact h
  | cons w ws ih =>
    intro hq
    obtain ⟨h1, h2⟩ := hq
    refine ⟨by omega, ?_⟩
    rcases h2 with h2 | h2
    · exact Or.inl h2
    · exact Or.inr ⟨h2.1, ih h2.2⟩

theorem wordMatches_quoted (x : WString) :
    (∀ (pos st : Nat), st < pos → (∀ c, x.getLast? = some c → isWordChar c = true) →
        QuotedWords st (pos + x.length) (wordMatches x pos (some st))) ∧
    (∀ (pos : Nat), x ≠ [] → (∀ c, x.getLast? = some c → isWordChar c = true) →
        QuotedWords pos (pos + x.length) (wordMatches x pos none)) := by
  induction x with
  | nil =>
    constructor
    · intro pos st hst _
      simp only [wordMatches, QuotedWords, List.length_nil]
      exact ⟨by omega, Or.inl ⟨trivial, by omega⟩⟩
    · intro pos h; exact absurd rfl h
  | cons c cs ih =>
    obtain ⟨ihA, ihB⟩ := ih
    have e : ∀ pos, pos + (c :: cs).length = pos + 1 + cs.length := by
      intro pos; simp; omega
    have hlast : (∀ d, (c :: cs).getLast? = some d → isWordChar d = true) →
        cs ≠ [] → ∀ d, cs.getLast? = some d → isWordChar d = true := by
      intro h hne d hd
      apply h d
      cases cs with
      | nil => exact absurd rfl hne
      | cons b bs => simpa [List.getLast?_cons_cons] using hd
    have hcsne : (∀ d, (c :: cs).getLast? = some d → isWordChar d = true) →
        isWordChar c = false → cs ≠ [] := by
      intro h hc hcs
      subst hcs
      have := h c (by simp)
      rw [hc] at this; cases this
    have hlast' : (∀ d, (c :: cs).getLast? = some d → isWordChar d = true) →
        ∀ d, cs.getLast? = some d → isWordChar d = true := by
      intro h d hd
      by_cases hne : cs = []
      · subst hne; simp at hd
      · exact hlast h hne d hd
    constructor
    · intro pos st hst hl
      by_cases hc : isWordChar c = true
      · simp only [wordMatches, hc, if_true, e]
        exact ihA (pos + 1) st (by omega) (hlast' hl)
      · have hc' : isWordChar c = false := by simpa using hc
        simp only [wordMatches, hc', e]
        have hne := hcsne hl hc'
        have := ihB (pos + 1) hne (hlast' hl)
        refine ⟨by simp; omega, Or.inr ⟨by simp; omega, QuotedWords_weaken _ _ _ (by omega) _ this⟩⟩
    · intro pos _ hl
      by_cases hc : isWordChar c = true
      · simp only [wordMatches, hc, if_true, e]
        exact ihA (pos + 1) pos (by omega) (hlast' hl)
      · have hc' : isWordChar c = false := by simpa using hc
        simp only [wordMatches, hc', e]
        have hne := hcsne hl hc'
        exact QuotedWords_weaken _ _ _ (by omega) _ (ihB (pos + 1) hne (hlast' hl))

/-! ## The quote matches of a line built from pieces -/

theorem quoteMatches_no_quote (x : WString) (hx : '"' ∉ x) :
    ∀ (pos : Nat) (anc : Option Nat) (ev : Bool), (∀ a0, anc = some a0 → a0 ≤ pos) →
      ∃ (anc' : Option Nat) (ev' : Bool), (∀ a0, anc' = some a0 → a0 ≤ pos + x.length) ∧
        ∀ y, quoteMatches (x ++ y) pos anc ev = quoteMatches y (pos + x.length) anc' ev' := by
  induction x with
  | nil =>
    intro pos anc ev h
    exact ⟨anc, ev, by simpa using h, fun y => by simp⟩
  | cons c x ih =>
    intro pos anc ev h
    have hc : c ≠ '"' := fun e => hx (by rw [e]; exact List.mem_cons_self _ _)
    have hx' : '"' ∉ x := fun e => hx (List.mem_cons_of_mem _ e)
    have e : ∀ d : Char, pos + (d :: x).length = pos + 1 + x.length := by
      intro d; simp; omega
    by_cases hb : c = '\\'
    · obtain ⟨anc', ev', hb', heq⟩ := ih hx' (pos + 1) anc (!ev)
        (fun a0 ha => by have := h a0 ha; omega)
      refine ⟨anc', ev', by rw [e]; exact hb', fun y => ?_⟩
      rw [List.cons_append]
      simp only [quoteMatches, hb, if_true]
      rw [heq y, e]
    · obtain ⟨anc', ev', hb', heq⟩ := ih hx' (pos + 1) (some pos) true
        (fun a0 ha => by cases ha; omega)
      refine ⟨anc', ev', by rw [e]; exact hb', fun y => ?_⟩
      rw [List.cons_append]
      simp only [quoteMatches, hb, hc, if_false]
      rw [heq y, e]

theorem quoteMatches_plain_char (c : Char) (y : WString) (hq : c ≠ '"') (hb : c ≠ '\\')
    (pos : Nat) (anc : Option Nat) (ev : Bool) :
    quoteMatches (c :: y) pos anc ev = quoteMatches y (pos + 1) (some pos) true := by
  simp only [quoteMatches, hb, hq, if_false]

theorem quoteMatches_whitespace (w : WString) (hw : ∀ c ∈ w, isSpace c = true) (y : WString) :
    ∀ (c : Char), isSpace c = true → ∀ (pos : Nat) (anc : Option Nat) (ev : Bool),
      quoteMatches (c :: w ++ y) pos anc ev =
        quoteMatches y (pos + w.length + 1) (some (pos + w.length)) true := by
  induction w with
  | nil =>
    intro c hc pos anc ev
    exact quoteMatches_plain_char c y (isSpace_ne_quote c hc) (isSpace_ne_backslash c hc) pos anc ev
  | cons d w ih =>
    intro c hc pos anc ev
    rw [List.cons_append,
      quoteMatches_plain_char c _ (isSpace_ne_quote c hc) (isSpace_ne_backslash c hc) pos anc ev]
    have := ih (fun b hb => hw b (List.mem_cons_of_mem _ hb)) d (hw d (List.mem_cons_self _ _))
      (pos + 1) (some pos) true
    rw [this]
    have e : pos + (d :: w).length = pos + 1 + w.length := by simp; omega
    rw [e]

theorem quoteMatches_backslashes (k : Nat) (y : WString) :
    ∀ (pos : Nat) (anc : Option Nat) (ev : Bool),
      quoteMatches (List.replicate (2 * k) '\\' ++ y) pos anc ev =
        quoteMatches y (pos + 2 * k) anc ev := by
  induction k with
  | zero => intro pos anc ev; simp
  | succ k ih =>
    intro pos anc ev
    have e : 2 * (k + 1) = (2 * k + 1) + 1 := by omega
    rw [e, List.replicate_succ, List.replicate_succ, List.cons_append, List.cons_append]
    simp only [quoteMatches, if_true, Bool.not_not]
    rw [ih]
    have e2 : pos + 1 + 1 + 2 * k = pos + (2 * k + 1 + 1) := by omega
    rw [e2]

theorem quoteMatches_quote (y : WString) (pos m : Nat) :
    quoteMatches ('"' :: y) pos (some m) true =
      ⟨m, pos + 1 - m⟩ :: quoteMatches y (pos + 1) none true := by
  have h : ('"' : Char) ≠ '\\' := by decide
  simp only [quoteMatches, h, if_false, if_true]

theorem quoteMatches_lower (y : WString) :
    ∀ (pos : Nat) (anc : Option Nat) (ev : Bool), (∀ a0, anc = some a0 → a0 ≤ pos) →
      ∀ m ∈ quoteMatches y pos anc ev, pos ≤ m.position + m.length - 1 := by
  induction y with
  | nil => intro pos anc ev _ m hm; simp [quoteMatches] at hm
  | cons c y ih =>
    intro pos anc ev h m hm
    by_cases hb : c = '\\'
    · simp only [quoteMatches, hb, if_true] at hm
      have := ih (pos + 1) anc (!ev) (fun a0 ha => by have := h a0 ha; omega) m hm
      omega
    · by_cases hq : c = '"'
      · subst hq
        cases anc with
        | none =>
          simp only [quoteMatches, hb, if_false, if_true] at hm
          have := ih (pos + 1) (some pos) true (fun a0 ha => by cases ha; omega) m hm
          omega
        | some a1 =>
          cases ev with
          | false =>
            simp only [quoteMatches, hb, if_false, if_true] at hm
            have := ih (pos + 1) (some pos) true (fun a0 ha => by cases ha; omega) m hm
            omega
          | true =>
            simp only [quoteMatches, hb, if_false, if_true, List.mem_cons] at hm
            rcases hm with hm | hm
            · subst hm
              have := h a1 rfl
              simp; omega
            · have := ih (pos + 1) none true (fun a0 ha => by cases ha) m hm
              omega
      · simp only [quoteMatches, hb, hq, if_false] at hm
        have := ih (pos + 1) (some pos) true (fun a0 ha => by cases ha; omega) m hm
        omega

theorem quoteMatches_closed_run (front : WString) (c : Char) (k : Nat) (tail : WString)
    (hfront : '"' ∉ front) (hcq : c ≠ '"') (hcb : c ≠ '\\') (P m : Nat) (hm : m ≤ P) :
    ∃ m1 m2 : Match,
      quoteMatches (('"' :: (front ++ c :: List.replicate (2 * k) '\\') ++ ['"']) ++ tail)
          P (some m) true =
        m1 :: m2 :: quoteMatches tail (P + (front.length + 2 * k + 3)) none true ∧
      m1.position + m1.length - 1 = P ∧
      m2.position + m2.length - 1 = P + (front.length + 2 * k + 3) - 1 := by
  obtain ⟨anc', ev', _, heq⟩ := quoteMatches_no_quote front hfront (P + 1) none true
    (fun a0 ha => by cases ha)
  refine ⟨⟨m, P + 1 - m⟩, ⟨P + 1 + front.length, P + 1 + front.length + 1 + 2 * k + 1 -
    (P + 1 + front.length)⟩, ?_, by simp; omega, by simp; omega⟩
  have e1 : (('"' :: (front ++ c :: List.replicate (2 * k) '\\') ++ ['"']) ++ tail)
      = '"' :: (front ++ (c :: (List.replicate (2 * k) '\\' ++ ('"' :: tail)))) := by
    simp
  rw [e1, quoteMatches_quote, heq, quoteMatches_plain_char c _ hcq hcb,
    quoteMatches_backslashes, quoteMatches_quote]
  have e2 : P + 1 + front.length + 1 + 2 * k + 1 = P + (front.length + 2 * k + 3) := by omega
  rw [e2]

/-! ## The loops of `ParseArguments` on one argument -/

theorem quoteLoop_stop (P E : Nat) (iter : List Match) (cnt : Nat)
    (h : ∀ m ∈ iter, E ≤ m.position + m.length - 1) :
    quoteLoop P E iter cnt = (iter, cnt) := by
  cases iter with
  | nil => rfl
  | cons m iter =>
    have := h m (List.mem_cons_self _ _)
    have hno : ¬ (P ≤ m.position + m.length - 1 ∧ m.position + m.length - 1 < E) := by omega
    simp only [quoteLoop, hno, if_false]

theorem quoteLoop_count (P E : Nat) (m : Match) (iter : List Match) (cnt : Nat)
    (h1 : P ≤ m.position + m.length - 1) (h2 : m.position + m.length - 1 < E)
    (h3 : P = m.position + m.length - 1 ∨ m.position + m.length - 1 = E - 1) :
    quoteLoop P E (m :: iter) cnt = quoteLoop P E iter (cnt + 1) := by
  simp only [quoteLoop, h1, h2, h3, and_self, if_true]

theorem parseLoop_plain (arg_line a : WString) (P : Nat) (R : List Match) (st : ParseState)
    (hne : a ≠ []) (ha : ∀ c ∈ a, isWordChar c = true)
    (hsub : substr arg_line P a.length = a)
    (hp0 : st.pos_word_0 = P)
    (hq : ∀ m ∈ st.iter_quote, P + a.length ≤ m.position + m.length - 1)
    (hcnt : st.cnt_quote % 2 = 0) :
    parseLoop arg_line (wordMatches a P none ++ R) st =
      parseLoop arg_line R
        { output :=
            (if st.pos_word_1 < P then
              st.output ++ [substr arg_line st.pos_word_1 (P - st.pos_word_1)]
             else st.output) ++ [a]
          pos_word_0 := nextWordPosition R
          pos_word_1 := P + a.length
          iter_quote := st.iter_quote
          cnt_quote := st.cnt_quote } := by
  rw [wordMatches_word a hne ha P]
  simp only [List.singleton_append, parseLoop]
  congr 1
  unfold parseStep
  simp only [hp0, quoteLoop_stop P (P + a.length) st.iter_quote st.cnt_quote hq]
  have hc : st.cnt_quote % 2 < 1 := by omega
  have e : P + a.length - P = a.length := by omega
  simp only [hc, if_true, e, hsub, List.append_eq, List.nil_append]

theorem parseLoop_inside (arg_line : WString) (P F : Nat) (m2 : Match) (Q : List Match)
    (h2 : m2.position + m2.length - 1 = F - 1)
    (hQ : ∀ m ∈ Q, F ≤ m.position + m.length - 1) (R : List Match) :
    ∀ (L : List Match) (st : ParseState), QuotedWords P F L →
      st.pos_word_0 = P → P < st.pos_word_1 → st.iter_quote = m2 :: Q →
      st.cnt_quote % 2 = 1 →
      parseLoop arg_line (L ++ R) st =
        parseLoop arg_line R
          { output := st.output ++ [substr arg_line P (F - P)]
            pos_word_0 := nextWordPosition R
            pos_word_1 := F
            iter_quote := Q
            cnt_quote := st.cnt_quote + 1 } := by
  intro L
  induction L with
  | nil => intro st h; exact absurd h (by simp [QuotedWords])
  | cons w L ih =>
    intro st hL hp0 hp1 hiq hcnt
    obtain ⟨hw, hcase⟩ := hL
    have hno : ¬ st.pos_word_1 < P := by omega
    rw [List.cons_append]
    simp only [parseLoop]
    rcases hcase with ⟨hnil, hend⟩ | ⟨hlt, hrest⟩
    · subst hnil
      have hstep : parseStep arg_line w ([] ++ R) st =
          { output := st.output ++ [substr arg_line P (F - P)]
            pos_word_0 := nextWordPosition R
            pos_word_1 := F
            iter_quote := Q
            cnt_quote := st.cnt_quote + 1 } := by
        unfold parseStep
        have hql : quoteLoop P F (m2 :: Q) st.cnt_quote = (Q, st.cnt_quote + 1) := by
          rw [quoteLoop_count P F m2 Q st.cnt_quote (by omega) (by omega) (Or.inr h2)]
          exact quoteLoop_stop P F Q _ hQ
        have hc : (st.cnt_quote + 1) % 2 < 1 := by omega
        simp only [hno, if_false, hp0, hend, hiq, hql, hc, if_true, List.nil_append]
      rw [hstep]
      rfl
    · have hstep : parseStep arg_line w (L ++ R) st =
          { output := st.output
            pos_word_0 := P
            pos_word_1 := w.position + w.length
            iter_quote := m2 :: Q
            cnt_quote := st.cnt_quote } := by
        unfold parseStep
        have hql : quoteLoop P (w.position + w.length) (m2 :: Q) st.cnt_quote
            = (m2 :: Q, st.cnt_quote) := by
          apply quoteLoop_stop
          intro m hm
          rcases List.mem_cons.1 hm with h | h
          · subst h; omega
          · have := hQ m h; omega
        have hc : ¬ st.cnt_quote % 2 < 1 := by omega
        simp only [hno, if_false, hp0, hiq, hql, hc]
      rw [hstep]
      exact ih _ hrest rfl hw rfl hcnt

theorem parseLoop_quoted (arg_line : WString) (P F : Nat) (m1 m2 : Match) (Q : List Match)
    (h1 : m1.position + m1.length - 1 = P)
    (h2 : m2.position + m2.length - 1 = F - 1)
    (hQ : ∀ m ∈ Q, F ≤ m.position + m.length - 1) (R : List Match)
    (L : List Match) (st : ParseState) (hL : QuotedWords P F L)
    (hp0 : st.pos_word_0 = P) (hE : st.pos_word_1 ≤ P) (hiq : st.iter_quote = m1 :: m2 :: Q)
    (hcnt : st.cnt_quote % 2 = 0) :
    parseLoop arg_line (L ++ R) st =
      parseLoop arg_line R
        { output :=
            (if st.pos_word_1 < P then
              st.output ++ [substr arg_line st.pos_word_1 (P - st.pos_word_1)]
             else st.output) ++ [substr arg_line P (F - P)]
          pos_word_0 := nextWordPosition R
          pos_word_1 := F
          iter_quote := Q
          cnt_quote := st.cnt_quote + 2 } := by
  cases L with
  | nil => exact absurd hL (by simp [QuotedWords])
  | cons w L =>
    obtain ⟨hw, hcase⟩ := hL
    rw [List.cons_append]
    simp only [parseLoop]
    rcases hcase with ⟨hnil, hend⟩ | ⟨hlt, hrest⟩
    · subst hnil
      have hstep : parseStep arg_line w ([] ++ R) st =
          { output :=
              (if st.pos_word_1 < P then
                st.output ++ [substr arg_line st.pos_word_1 (P - st.pos_word_1)]
               else st.output) ++ [substr arg_line P (F - P)]
            pos_word_0 := nextWordPosition R
            pos_word_1 := F
            iter_quote := Q
            cnt_quote := st.cnt_quote + 2 } := by
        unfold parseStep
        have hql : quoteLoop P F (m1 :: m2 :: Q) st.cnt_quote = (Q, st.cnt_quote + 2) := by
          rw [quoteLoop_count P F m1 _ st.cnt_quote (by omega) (by omega) (Or.inl h1.symm),
            quoteLoop_count P F m2 Q _ (by omega) (by omega) (Or.inr h2)]
          exact quoteLoop_stop P F Q _ hQ
        have hc : (st.cnt_quote + 2) % 2 < 1 := by omega
        simp only [hp0, hend, hiq, hql, hc, if_true, List.nil_append]
      rw [hstep]
      rfl
    · have hstep : parseStep arg_line w (L ++ R) st =
          { output :=
              (if st.pos_word_1 < P then
                st.output ++ [substr arg_line st.pos_word_1 (P - st.pos_word_1)]
               else st.output)
            pos_word_0 := P
            pos_word_1 := w.position + w.length
            iter_quote := m2 :: Q
            cnt_quote := st.cnt_quote + 1 } := by
        unfold parseStep
        have hql : quoteLoop P (w.position + w.length) (m1 :: m2 :: Q) st.cnt_quote
            = (m2 :: Q, st.cnt_quote + 1) := by
          rw [quoteLoop_count P _ m1 _ st.cnt_quote (by omega) (by omega) (Or.inl h1.symm)]
          apply quoteLoop_stop
          intro m hm
          rcases List.mem_cons.1 hm with h | h
          · subst h; omega
          · have := hQ m h; omega
        have hc : ¬ (st.cnt_quote + 1) % 2 < 1 := by omega
        simp only [hp0, hiq, hql, hc, if_false]
      rw [hstep]
      rw [parseLoop_inside arg_line P F m2 Q h2 hQ R L _ hrest rfl hw rfl (by simp; omega)]

/-! ## The tokens of a line of arguments -/

theorem substr_middle (pre a tail : WString) :
    substr (pre ++ (a ++ tail)) pre.length a.length = a := by
  simp [substr]

theorem isPlainWord_spec (a : WString) (h : isPlainWord a = true) :
    a ≠ [] ∧ (∀ c ∈ a, isWordChar c = true) ∧ '"' ∉ a := by
  simp only [isPlainWord, Bool.and_eq_true, List.all_eq_true, Bool.not_eq_true',
    List.isEmpty_eq_false] at h
  refine ⟨h.1, fun c hc => (h.2 c hc).1, fun hq => ?_⟩
  have := (h.2 _ hq).2
  simp at this

theorem isLineArgument_head (a : WString) (h : isLineArgument a) :
    ∃ c x, a = c :: x ∧ isWordChar c = true := by
  rcases h with h | ⟨front, c, k, ha, _⟩
  · obtain ⟨hne, hw, _⟩ := isPlainWord_spec a h
    cases a with
    | nil => exact absurd rfl hne
    | cons c x => exact ⟨c, x, rfl, hw c (List.mem_cons_self _ _)⟩
  · exact ⟨'"', _, by rw [ha]; rfl, by decide⟩

theorem lineOf_append (a : WString) (rest : List (WString × WString)) :
    ∃ t, lineOf a rest = a ++ t := by
  cases rest with
  | nil => exact ⟨[], by simp [lineOf]⟩
  | cons p rest => exact ⟨p.1 ++ lineOf p.2 rest, rfl⟩

theorem parseLoop_argument (arg_line pre a tail : WString) (P : Nat) (hP : P = pre.length)
    (hline : arg_line = pre ++ (a ++ tail)) (hgood : isLineArgument a)
    (m : Nat) (hm : m ≤ P) (st : ParseState)
    (hp0 : st.pos_word_0 = P) (hE : st.pos_word_1 ≤ P)
    (hiq : st.iter_quote = quoteMatches (a ++ tail) P (some m) true)
    (hcnt : st.cnt_quote % 2 = 0) :
    ∃ (anc : Option Nat) (ev : Bool) (cnt : Nat),
      (∀ a0, anc = some a0 → a0 ≤ P + a.length) ∧ cnt % 2 = 0 ∧
      ∀ R, parseLoop arg_line (wordMatches a P none ++ R) st =
        parseLoop arg_line R
          { output := outputWithSeparator arg_line st P ++ [a]
            pos_word_0 := nextWordPosition R
            pos_word_1 := P + a.length
            iter_quote := quoteMatches tail (P + a.length) anc ev
            cnt_quote := cnt } := by
  have hsub : substr arg_line P a.length = a := by
    rw [hline, hP]; exact substr_middle pre a tail
  rcases hgood with hplain | ⟨front, c, k, ha, hfront, hcq, hcb⟩
  · obtain ⟨hne, hw, hnq⟩ := isPlainWord_spec a hplain
    obtain ⟨anc, ev, hb, heq⟩ := quoteMatches_no_quote a hnq P (some m) true
      (fun a0 h0 => by cases h0; exact hm)
    refine ⟨anc, ev, st.cnt_quote, hb, hcnt, fun R => ?_⟩
    have hq : ∀ q ∈ st.iter_quote, P + a.length ≤ q.position + q.length - 1 := by
      rw [hiq, heq tail]
      exact quoteMatches_lower tail _ anc ev hb
    rw [parseLoop_plain arg_line a P R st hne hw hsub hp0 hq hcnt]
    simp only [outputWithSeparator, hiq, heq tail]
  · have hlen : a.length = front.length + 2 * k + 3 := by
      rw [ha]; simp; omega
    obtain ⟨m1, m2, heq, h1, h2⟩ :=
      quoteMatches_closed_run front c k tail hfront hcq hcb P m hm
    rw [← ha, ← hlen] at heq
    rw [← hlen] at h2
    have hQ : ∀ q ∈ quoteMatches tail (P + a.length) none true,
        P + a.length ≤ q.position + q.length - 1 :=
      quoteMatches_lower tail _ none true (fun a0 h0 => by cases h0)
    have hane : a ≠ [] := by rw [ha]; simp
    have hlast : ∀ d, a.getLast? = some d → isWordChar d = true := by
      intro d hd
      rw [ha, List.getLast?_concat] at hd
      cases hd
      decide
    have hL : QuotedWords P (P + a.length) (wordMatches a P none) :=
      (wordMatches_quoted a).2 P hane hlast
    refine ⟨none, true, st.cnt_quote + 2, (fun a0 h0 => by cases h0), (by omega), fun R => ?_⟩
    rw [parseLoop_quoted arg_line P (P + a.length) m1 m2 _ h1 h2 hQ R _ st hL hp0 hE
      (by rw [hiq, heq]) hcnt]
    have e : P + a.length - P = a.length := by omega
    simp only [outputWithSeparator, e, hsub]

theorem isWhitespaceToken_spec (w : WString) (h : isWhitespaceToken w = true) :
    ∃ c w', w = c :: w' ∧ isSpace c = true ∧ ∀ d ∈ w', isSpace d = true := by
  simp only [isWhitespaceToken, Bool.and_eq_true, List.all_eq_true, Bool.not_eq_true',
    List.isEmpty_eq_false] at h
  cases w with
  | nil => exact absurd rfl h.1
  | cons c w' =>
    exact ⟨c, w', rfl, h.2 c (List.mem_cons_self _ _),
      fun d hd => h.2 d (List.mem_cons_of_mem _ hd)⟩

theorem parseLoop_line :
    ∀ (rest : List (WString × WString)) (a arg_line pre : WString) (P m : Nat)
      (st : ParseState),
      P = pre.length → arg_line = pre ++ lineOf a rest → isLineArgument a →
      (∀ p ∈ rest, isWhitespaceToken p.1 = true ∧ isLineArgument p.2) →
      m ≤ P → st.pos_word_0 = P → st.pos_word_1 ≤ P →
      st.iter_quote = quoteMatches (lineOf a rest) P (some m) true →
      st.cnt_quote % 2 = 0 →
      parseLoop arg_line (wordMatches (lineOf a rest) P none) st =
        outputWithSeparator arg_line st P ++ tokensOf a rest := by
  intro rest
  induction rest with
  | nil =>
    intro a arg_line pre P m st hP hline hgood _ hm hp0 hE hiq hcnt
    have hl : lineOf a [] = a ++ [] := by simp [lineOf]
    rw [hl] at hline hiq
    obtain ⟨anc, ev, cnt, _, _, hstep⟩ :=
      parseLoop_argument arg_line pre a [] P hP hline hgood m hm st hp0 hE hiq hcnt
    have := hstep []
    simp only [List.append_nil] at this
    simp only [lineOf, tokensOf]
    rw [this]
    rfl
  | cons p rest ih =>
    intro a arg_line pre P m st hP hline hgood hrest hm hp0 hE hiq hcnt
    obtain ⟨w, b⟩ := p
    have hwb := hrest (w, b) (List.mem_cons_self _ _)
    obtain ⟨c, w', hw, hc, hw'⟩ := isWhitespaceToken_spec w hwb.1
    have hb : isLineArgument b := hwb.2
    have hrest' : ∀ p ∈ rest, isWhitespaceToken p.1 = true ∧ isLineArgument p.2 :=
      fun p hp => hrest p (List.mem_cons_of_mem _ hp)
    have hl : lineOf a ((w, b) :: rest) = a ++ (w ++ lineOf b rest) := rfl
    rw [hl] at hline hiq ⊢
    obtain ⟨anc, ev, cnt, hanc, hcnt', hstep⟩ :=
      parseLoop_argument arg_line pre a (w ++ lineOf b rest) P hP hline hgood m hm st hp0 hE
        hiq hcnt
    -- the words of the line: those of `a`, then those behind the whitespace run
    have hwords : wordMatches (a ++ (w ++ lineOf b rest)) P none =
        wordMatches a P none ++ wordMatches (lineOf b rest) (P + a.length + w.length) none := by
      rw [hw, List.cons_append,
        wordMatches_split a c (w' ++ lineOf b rest) (isSpace_not_word c hc) P none,
        wordMatches_skip w' (lineOf b rest) (fun d hd => isSpace_not_word d (hw' d hd))]
      have e : P + a.length + 1 + w'.length = P + a.length + (c :: w').length := by
        simp; omega
      rw [e]
    rw [hwords, hstep]
    -- the state in front of `b`
    have hP' : P + a.length + w.length = (pre ++ (a ++ w)).length := by
      simp [hP]; omega
    have hline' : arg_line = (pre ++ (a ++ w)) ++ lineOf b rest := by
      rw [hline]; simp
    have hquote : quoteMatches (w ++ lineOf b rest) (P + a.length) anc ev =
        quoteMatches (lineOf b rest) (P + a.length + w.length)
          (some (P + a.length + w.length - 1)) true := by
      rw [hw, quoteMatches_whitespace w' hw' (lineOf b rest) c hc]
      have e1 : P + a.length + w'.length + 1 = P + a.length + (c :: w').length := by
        simp; omega
      have e2 : P + a.length + w'.length = P + a.length + (c :: w').length - 1 := by
        simp
      rw [e1, e2]
    have hwlen : 0 < w.length := by rw [hw]; simp
    have hnext : nextWordPosition
        (wordMatches (lineOf b rest) (P + a.length + w.length) none)
          = P + a.length + w.length := by
      obtain ⟨c0, x, hbx, hc0⟩ := isLineArgument_head b hb
      obtain ⟨t, ht⟩ := lineOf_append b rest
      rw [ht, hbx, List.cons_append]
      exact nextWordPosition_word_start c0 _ hc0 _
    rw [ih b arg_line (pre ++ (a ++ w)) (P + a.length + w.length)
      (P + a.length + w.length - 1) _ hP' hline' hb hrest' (by omega) hnext
      (by simp) hquote hcnt']
    -- the separator pushed in front of `b` is `w`
    have hsepw : substr arg_line (P + a.length) (P + a.length + w.length - (P + a.length)) = w := by
      have e : P + a.length + w.length - (P + a.length) = w.length := by omega
      have hl2 : arg_line = (pre ++ a) ++ (w ++ lineOf b rest) := by rw [hline]; simp
      have hp2 : P + a.length = (pre ++ a).length := by simp [hP]
      rw [e, hl2, hp2]
      exact substr_middle (pre ++ a) w (lineOf b rest)
    have hlt : P + a.length < P + a.length + w.length := by omega
    simp only [outputWithSeparator, hlt, if_true, hsepw, tokensOf]
    simp

theorem ParseArguments_lineOf (a : WString) (rest : List (WString × WString))
    (ha : isLineArgument a)
    (hrest : ∀ p ∈ rest, isWhitespaceToken p.1 = true ∧ isLineArgument p.2) :
    ParseArguments (lineOf a rest) = tokensOf a rest := by
  unfold ParseArguments iterWord iterQuote
  rw [parseLoop_line rest a (lineOf a rest) [] 0 0
    { output := []
      pos_word_0 := 0
      pos_word_1 := 0
      iter_quote := quoteMatches (lineOf a rest) 0 (some 0) true
      cnt_quote := 0 } rfl (by simp) ha hrest (Nat.le_refl 0) rfl (Nat.le_refl 0) rfl rfl]
  simp [outputWithSeparator]

theorem tokensOf_length (rest : List (WString × WString)) :
    ∀ a : WString, (tokensOf a rest).length = 2 * rest.length + 1 := by
  induction rest with
  | nil => intro a; rfl
  | cons p rest ih =>
    intro a
    obtain ⟨w, b⟩ := p
    simp only [tokensOf, List.length_cons, ih b]
    omega

theorem tokensOf_even (rest : List (WString × WString)) :
    ∀ (a : WString) (i : Nat), (tokensOf a rest)[2 * i]? = (argumentsOf a rest)[i]? := by
  induction rest with
  | nil =>
    intro a i
    cases i with
    | zero => rfl
    | succ i =>
      have e : 2 * (i + 1) = 2 * i + 1 + 1 := by omega
      rw [e]
      simp [tokensOf, argumentsOf]
  | cons p rest ih =>
    intro a i
    obtain ⟨w, b⟩ := p
    cases i with
    | zero => rfl
    | succ i =>
      have e : 2 * (i + 1) = 2 * i + 1 + 1 := by omega
      rw [e]
      have := ih b i
      simpa [tokensOf, argumentsOf] using this

/-- C9, the claim as stated, fails: a quoted run that begins and ends with a
quote and holds no other quote is not always one token. In the line made of
the quoted run `"a\"`, a space and the quoted run `"b"`, the closing quote of
the first run follows a backslash, so `QUOTE_REGEX` does not match it; the
whole line is one token, index 0 returns the whole line and index 1 finds
nothing. -/
theorem C9_escaped_closing_quote :
    isStatedArgument "\"a\\\"".toList ∧ isStatedArgument "\"b\"".toList ∧
    isWhitespaceToken " ".toList = true ∧
    lineOf "\"a\\\"".toList [(" ".toList, "\"b\"".toList)] = "\"a\\\" \"b\"".toList ∧
    ParseArguments "\"a\\\" \"b\"".toList = ["\"a\\\" \"b\"".toList] ∧
    GetArgumentIndex (ParseArguments "\"a\\\" \"b\"".toList) 0
      = (true, "\"a\\\" \"b\"".toList, [[]]) ∧
    GetArgumentIndex (ParseArguments "\"a\\\" \"b\"".toList) 1
      = (false, [], ["\"a\\\" \"b\"".toList]) ∧
    ¬ (∀ (a : WString) (rest : List (WString × WString)), isStatedArgument a →
        (∀ p ∈ rest, isWhitespaceToken p.1 = true ∧ isStatedArgument p.2) →
        ∀ i : Nat, i < rest.length + 1 →
          ∃ value args,
            GetArgumentIndex (ParseArguments (lineOf a rest)) (i : Int) = (true, value, args) ∧
            (argumentsOf a rest)[i]? = some value) := by
  have h1 : isStatedArgument "\"a\\\"".toList := Or.inr ⟨['a', '\\'], by decide, by decide⟩
  have h2 : isStatedArgument "\"b\"".toList := Or.inr ⟨['b'], by decide, by decide⟩
  refine ⟨h1, h2, by decide, by decide, by decide, by decide, by decide, ?_⟩
  intro h
  obtain ⟨value, args, heq, hval⟩ := h "\"a\\\"".toList [(" ".toList, "\"b\"".toList)] h1
    (by
      intro p hp
      simp only [List.mem_singleton] at hp
      subst hp
      exact ⟨by decide, h2⟩) 1 (by decide)
  have hcode : GetArgumentIndex
      (ParseArguments (lineOf "\"a\\\"".toList [(" ".toList, "\"b\"".toList)])) ((1 : Nat) : Int)
      = (false, [], ["\"a\\\" \"b\"".toList]) := by decide
  rw [hcode] at heq
  cases heq

/-- C9 amended: positional indexing on a fresh tokenization. The line is made
of `n = length rest + 1` arguments separated by whitespace runs, without
leading or trailing whitespace; each argument is a word without quote
character (and without `=`), or a quoted run that begins and ends with a quote,
holds no other quote, and whose closing quote follows an even number (possibly
zero) of backslashes behind an interior character that is no backslash. Then
the tokens are exactly the arguments and the whitespace runs, and for an index
`i < 2^30` the positional extractor returns true and the `i`-th argument
verbatim when `i < n`, and false, an empty value and the tokens unchanged when
`i >= n`. For `arg1 arg2 "arg 3"` the indices 0, 1, 2, 3 give `arg1`, `arg2`,
`"arg 3"` and not-found. -/
theorem C9_positional_indexing (a : WString) (rest : List (WString × WString))
    (ha : isLineArgument a)
    (hrest : ∀ p ∈ rest, isWhitespaceToken p.1 = true ∧ isLineArgument p.2)
    (i : Nat) (hi : i < 2 ^ 30) :
    ParseArguments (lineOf a rest) = tokensOf a rest ∧
    (i < rest.length + 1 →
      ∃ value args,
        GetArgumentIndex (ParseArguments (lineOf a rest)) (i : Int) = (true, value, args) ∧
        (argumentsOf a rest)[i]? = some value) ∧
    (rest.length + 1 ≤ i →
      GetArgumentIndex (ParseArguments (lineOf a rest)) (i : Int)
        = (false, [], ParseArguments (lineOf a rest))) ∧
    ((GetArgumentIndex (ParseArguments "arg1 arg2 \"arg 3\"".toList) 0).1 = true ∧
      (GetArgumentIndex (ParseArguments "arg1 arg2 \"arg 3\"".toList) 0).2.1 = "arg1".toList ∧
      (GetArgumentIndex (ParseArguments "arg1 arg2 \"arg 3\"".toList) 1).1 = true ∧
      (GetArgumentIndex (ParseArguments "arg1 arg2 \"arg 3\"".toList) 1).2.1 = "arg2".toList ∧
      (GetArgumentIndex (ParseArguments "arg1 arg2 \"arg 3\"".toList) 2).1 = true ∧
      (GetArgumentIndex (ParseArguments "arg1 arg2 \"arg 3\"".toList) 2).2.1
        = "\"arg 3\"".toList ∧
      (GetArgumentIndex (ParseArguments "arg1 arg2 \"arg 3\"".toList) 3).1 = false ∧
      (GetArgumentIndex (ParseArguments "arg1 arg2 \"arg 3\"".toList) 3).2.1 = []) := by
  have hparse := ParseArguments_lineOf a rest ha hrest
  refine ⟨hparse, ?_, ?_, by decide⟩
  · intro hlt
    have h2 : 2 * i < (tokensOf a rest).length := by rw [tokensOf_length]; omega
    rw [hparse, GetArgumentIndex_eq _ i hi]
    refine ⟨(tokensOf a rest).getD (2 * i) [],
      ((tokensOf a rest).set (2 * i) []).set (2 * i + 1) [], by simp only [h2, if_true], ?_⟩
    rw [← tokensOf_even rest a i]
    exact getD_eq_of_getElem? _ _ h2
  · intro hge
    have h2 : ¬ 2 * i < (tokensOf a rest).length := by rw [tokensOf_length]; omega
    rw [hparse, GetArgumentIndex_eq _ i hi]
    simp only [h2, if_false]

/-- Witness of C9 amended: the line `arg1 arg2 "arg 3"` and index 2. -/
theorem C9_positional_indexing_witness :
    (2 : Nat) < 2 ^ 30 ∧
    lineOf "arg1".toList [(" ".toList, "arg2".toList), (" ".toList, "\"arg 3\"".toList)]
      = "arg1 arg2 \"arg 3\"".toList ∧
    ParseArguments
        (lineOf "arg1".toList [(" ".toList, "arg2".toList), (" ".toList, "\"arg 3\"".toList)])
      = tokensOf "arg1".toList
          [(" ".toList, "arg2".toList), (" ".toList, "\"arg 3\"".toList)] :=
  ⟨by decide, by decide,
    (C9_positional_indexing "arg1".toList
      [(" ".toList, "arg2".toList), (" ".toList, "\"arg 3\"".toList)]
      (Or.inl (by decide))
      (by
        intro p hp
        simp only [List.mem_cons, List.mem_singleton, List.not_mem_nil, or_false] at hp
        rcases hp with hp | hp
        · subst hp
          exact ⟨by decide, Or.inl (by decide)⟩
        · subst hp
          exact ⟨by decide, Or.inr ⟨"arg ".toList, '3', 0, by decide, by decide, by decide,
            by decide⟩⟩)
      2 (by decide)).1⟩

/-! ## Claims on the quote rules settled by evaluation -/

/-- C14: a quote at the first character of a word does not always count toward
the quote parity. The test of line 102 compares the quote with `pos_word_0`,
which stays on the start of the open argument. In `"a "b c"` the quote that
opens the second word `"b` is walked over without being counted: the count is
1 after the first word and still 1 after the second, and the only token is the
whole line, not `"a "b`. -/
theorem C14_word_start_quote_not_counted :
    iterWord "\"a \"b c\"".toList = [⟨0, 2⟩, ⟨3, 2⟩, ⟨6, 2⟩] ∧
    (iterQuote "\"a \"b c\"".toList).map (fun m => m.position + m.length - 1) = [0, 3, 7] ∧
    quoteLoop 0 2 (iterQuote "\"a \"b c\"".toList) 0 = ([⟨2, 2⟩, ⟨6, 2⟩], 1) ∧
    quoteLoop 0 5 [⟨2, 2⟩, ⟨6, 2⟩] 1 = ([⟨6, 2⟩], 1) ∧
    ParseArguments "\"a \"b c\"".toList = ["\"a \"b c\"".toList] ∧
    (ParseArguments "\"a \"b c\"".toList).head? ≠ some "\"a \"b".toList := by
  decide

/-- C15: the quote scanner does not walk every quote that follows an even
number of backslashes. Each match of `QUOTE_REGEX` takes in the character in
front of the quote, so a quote right behind a matched quote is not found: in
`""` only the quote at offset 0 is walked, the argument never closes, and
`"" foo` gives no token at all. -/
theorem C15_adjacent_quote_not_found :
    (iterQuote "\"\"".toList).map (fun m => m.position + m.length - 1) = [0] ∧
    (iterQuote "\"\" foo".toList).map (fun m => m.position + m.length - 1) = [0] ∧
    ParseArguments "\"\"".toList = [] ∧
    ParseArguments "\"\" foo".toList = [] ∧
    ParseArguments "\"\" foo".toList ≠ ["\"\"".toList, " ".toList, "foo".toList] := by
  decide

/-- C16, the claim as stated, fails: the flag overload tests the pattern
against every slot, the whitespace tokens too. On the tokens of `a b` with the
pattern that matches exactly one space, the space is taken as the flag: the
call returns true and clears the space and the `b` behind it. -/
theorem C16_whitespace_token_taken :
    ParseArguments "a b".toList = ["a".toList, " ".toList, "b".toList] ∧
    isWhitespaceToken " ".toList = true ∧
    literalPattern " ".toList " ".toList = true ∧
    GetArgumentFlag (ParseArguments "a b".toList) (literalPattern " ".toList)
      = (true, ["a".toList, [], []]) ∧
    ¬ (∀ (s : WString) (p : WString → Bool),
        (∃ (k : Nat) (tok : WString), (ParseArguments s)[k]? = some tok ∧
          isWhitespaceToken tok = true ∧ p tok = true ∧
          ∀ (j : Nat) (tok' : WString), j % 2 = 0 → (ParseArguments s)[j]? = some tok' →
            p tok' = false) →
        GetArgumentFlag (ParseArguments s) p = (false, ParseArguments s)) := by
  refine ⟨by decide, by decide, by decide, by decide, ?_⟩
  intro h
  have h1 := h "a b".toList (literalPattern " ".toList)
    ⟨1, " ".toList, by decide, by decide, by decide, by
      intro j tok' hj hget
      have hparse : ParseArguments "a b".toList = ["a".toList, " ".toList, "b".toList] := by
        decide
      rw [hparse] at hget
      have hj3 : j < 3 := by
        by_contra hge
        have : ["a".toList, " ".toList, "b".toList][j]? = none := by
          apply List.getElem?_eq_none; simp; omega
        rw [this] at hget; cases hget
      have hj02 : j = 0 ∨ j = 2 := by omega
      rcases hj02 with h0 | h2
      · subst h0; simp at hget; subst hget; decide
      · subst h2; simp at hget; subst hget; decide⟩
  revert h1
  decide

/-- C16 amended: the flag overload tests the pattern against every token in
sequence order, whitespace tokens included. For every token sequence produced
by `ParseArguments` and every pattern, a whitespace token that fully matches
the pattern, with no earlier token matching, is taken as the flag: the call
returns true and clears that token and the one behind it. On the tokens of
`a b`, a pattern that matches one space (and not `a`) gives true and clears the
space and `b`. -/
theorem C16_flag_tests_every_token (s : WString) (p : WString → Bool) (k : Nat)
    (tok : WString) (hk : (ParseArguments s)[k]? = some tok)
    (hws : isWhitespaceToken tok = true) (hp : p tok = true)
    (hmin : ∀ (j : Nat) (tok' : WString), j < k → (ParseArguments s)[j]? = some tok' →
      p tok' = false) :
    GetArgumentFlag (ParseArguments s) p
      = (true, ((ParseArguments s).set k []).set (k + 1) []) ∧
    (∀ q : WString → Bool, q " ".toList = true → q "a".toList = false →
      GetArgumentFlag (ParseArguments "a b".toList) q = (true, ["a".toList, [], []])) := by
  have hklt : k < (ParseArguments s).length := by
    by_contra hge
    rw [List.getElem?_eq_none (Nat.le_of_not_lt hge)] at hk
    cases hk
  have hget : (ParseArguments s).getD k [] = tok := by
    have := getD_eq_of_getElem? (ParseArguments s) k hklt
    rw [hk] at this
    cases this
    rfl
  constructor
  · refine flagLoop_hit p _ _ 0 k (Nat.zero_le k) (by omega) ?_ (by rw [hget]; exact hp)
    intro j _ hj
    exact hmin j _ hj (getD_eq_of_getElem? (ParseArguments s) j (by omega))
  · intro q hsp ha
    have hparse : ParseArguments "a b".toList = ["a".toList, " ".toList, "b".toList] := by
      decide
    rw [hparse]
    refine flagLoop_hit q _ 3 0 1 (by decide) (by decide) ?_ hsp
    intro j _ hj
    have : j = 0 := by omega
    subst this
    exact ha

/-- Witness of C16 amended: the space at offset 1 of the tokens of `a b` and the
pattern that matches exactly one space. -/
theorem C16_flag_tests_every_token_witness :
    (ParseArguments "a b".toList)[1]? = some " ".toList ∧
    GetArgumentFlag (ParseArguments "a b".toList) (literalPattern " ".toList)
      = (true, ((ParseArguments "a b".toList).set 1 []).set (1 + 1) []) :=
  ⟨by decide,
    (C16_flag_tests_every_token "a b".toList (literalPattern " ".toList) 1 " ".toList
      (by decide) (by decide) (by decide)
      (by
        intro j tok' hj hget
        have : j = 0 := by omega
        subst this
        have hparse : ParseArguments "a b".toList = ["a".toList, " ".toList, "b".toList] := by
          decide
        rw [hparse] at hget
        simp at hget
        subst hget
        decide)).1⟩

/-! ## Reparse -/

theorem ParseArguments_nonempty (s : WString) : ∀ tok ∈ ParseArguments s, tok ≠ [] := by
  intro tok hmem
  obtain ⟨i, hi, hget⟩ := List.getElem_of_mem hmem
  have h : (ParseArguments s)[i]? = some tok := by
    rw [List.getElem?_eq_getElem hi, hget]
  have halt := ParseArguments_alternates s i tok h
  intro hnil
  subst hnil
  rcases Nat.mod_two_eq_zero_or_one i with h0 | h1
  · have := halt.1 h0
    simp [isArgumentToken] at this
  · have := halt.2 h1
    simp [isSeparatorToken] at this

/-- C13: `ReparseArguments t` is `ParseArguments (CollapseArguments t)` for
every token sequence `t`, cleared slots or not, and holds no empty token, so
the slots cleared by an extractor are gone and later arguments move down. On
the tokens of `run --verbose now`, after the flag extraction of `--verbose`
index 1 still reads the cleared slot; after the reparse the sequence is `run`,
one space, `now`, and index 1 returns `now`. -/
theorem C13_reparse_drops_cleared_slots (t : List WString) :
    ReparseArguments t = ParseArguments (CollapseArguments t) ∧
    (∀ tok ∈ ReparseArguments t, tok ≠ []) ∧
    (∀ q : WString → Bool, q "--verbose".toList = true → q "run".toList = false →
      q " ".toList = false →
      ∃ args, GetArgumentFlag (ParseArguments "run --verbose now".toList) q = (true, args) ∧
        (GetArgumentIndex args 1).2.1 = [] ∧
        ReparseArguments args = ["run".toList, " ".toList, "now".toList] ∧
        (GetArgumentIndex (ReparseArguments args) 1).1 = true ∧
        (GetArgumentIndex (ReparseArguments args) 1).2.1 = "now".toList) := by
  refine ⟨rfl, ParseArguments_nonempty _, ?_⟩
  intro q hv hr hs
  have hparse : ParseArguments "run --verbose now".toList
      = ["run".toList, " ".toList, "--verbose".toList, " ".toList, "now".toList] := by
    decide
  refine ⟨["run".toList, " ".toList, [], [], "now".toList], ?_, by decide, by decide,
    by decide, by decide⟩
  rw [hparse]
  refine flagLoop_hit q _ 5 0 2 (by decide) (by decide) ?_ hv
  intro j _ hj
  have hj01 : j = 0 ∨ j = 1 := by omega
  rcases hj01 with h0 | h1
  · subst h0; exact hr
  · subst h1; exact hs

/-! ## The sign `=` between two words -/

theorem quoteMatches_nil (x : WString) (hx : '"' ∉ x) (pos : Nat) (anc : Option Nat)
    (ev : Bool) (h : ∀ a0, anc = some a0 → a0 ≤ pos) : quoteMatches x pos anc ev = [] := by
  obtain ⟨anc', ev', _, heq⟩ := quoteMatches_no_quote x hx pos anc ev h
  have := heq []
  rw [List.append_nil] at this
  rw [this]
  rfl

/-- C19: `=` is a separator. For all non-empty words `a` and `b` without
whitespace, `=` and quote, `ParseArguments (a ++ "=" ++ b)` is `a`, `=`, `b`:
the sign takes the separator slot between the two argument tokens. So the
named-value overload on the tokens of `--out=file.txt`, with a pattern that
matches `--out`, returns true and `file.txt`. -/
theorem C19_equals_sign_separates (a b : WString) (ha : isPlainWord a = true)
    (hb : isPlainWord b = true) :
    ParseArguments (a ++ "=".toList ++ b) = [a, "=".toList, b] ∧
    (∀ q : WString → Bool, q "--out".toList = true →
      ∃ args, GetArgumentNamed (ParseArguments "--out=file.txt".toList) q
        = (true, "file.txt".toList, args)) := by
  constructor
  · obtain ⟨hane, haw, haq⟩ := isPlainWord_spec a ha
    obtain ⟨hbne, hbw, hbq⟩ := isPlainWord_spec b hb
    have hs : a ++ "=".toList ++ b = a ++ ('=' :: b) := by
      show a ++ ['='] ++ b = a ++ ('=' :: b)
      simp
    rw [hs]
    have hnq : '"' ∉ a ++ ('=' :: b) := by
      intro h
      rcases List.mem_append.1 h with h | h
      · exact haq h
      · rcases List.mem_cons.1 h with h | h
        · revert h; decide
        · exact hbq h
    have hwords : iterWord (a ++ ('=' :: b))
        = wordMatches a 0 none ++ (wordMatches b (a.length + 1) none ++ []) := by
      unfold iterWord
      rw [wordMatches_split a '=' b (by decide) 0 none]
      simp
    have hquotes : iterQuote (a ++ ('=' :: b)) = [] :=
      quoteMatches_nil _ hnq 0 (some 0) true (fun a0 h0 => by cases h0; exact Nat.le_refl 0)
    unfold ParseArguments
    rw [hwords, hquotes]
    have hsep : substr (a ++ ('=' :: b)) a.length 1 = ['='] := by
      have h2 : a ++ ('=' :: b) = a ++ (['='] ++ b) := by simp
      rw [h2]
      exact substr_middle a ['='] b
    have hnext : nextWordPosition (wordMatches b (a.length + 1) none ++ []) = a.length + 1 := by
      rw [wordMatches_word b hbne hbw]; rfl
    have step1 := parseLoop_plain (a ++ ('=' :: b)) a 0
      (wordMatches b (a.length + 1) none ++ [])
      { output := []
        pos_word_0 := 0
        pos_word_1 := 0
        iter_quote := []
        cnt_quote := 0 } hane haw
      (by simpa using substr_middle [] a ('=' :: b)) rfl
      (by intro m hm; cases hm) rfl
    have step2 := parseLoop_plain (a ++ ('=' :: b)) b (a.length + 1) []
      { output := [a]
        pos_word_0 := a.length + 1
        pos_word_1 := a.length
        iter_quote := []
        cnt_quote := 0 } hbne hbw
      (by
        have h2 : a ++ ('=' :: b) = (a ++ ['=']) ++ (b ++ []) := by simp
        have h3 : a.length + 1 = (a ++ ['=']).length := by simp
        rw [h2, h3]
        exact substr_middle (a ++ ['=']) b [])
      rfl
      (by intro m hm; cases hm) rfl
    rw [step1]
    simp only [Nat.lt_irrefl, if_false, List.nil_append, hnext, Nat.zero_add]
    rw [step2]
    have hlt : a.length < a.length + 1 := Nat.lt_succ_self _
    have e : a.length + 1 - a.length = 1 := by omega
    simp only [hlt, if_true, e, hsep, parseLoop]
    rfl
  · intro q hq
    have hparse : ParseArguments "--out=file.txt".toList
        = ["--out".toList, "=".toList, "file.txt".toList] := by decide
    refine ⟨[[], [], []], ?_⟩
    rw [hparse]
    exact namedLoop_hit q _ 3 0 0 (Nat.le_refl 0) (by decide)
      (fun j _ h => absurd h (Nat.not_lt_zero j)) hq (by decide)

/-- Witness of C19: the words `--out` and `file.txt`. -/
theorem C19_equals_sign_separates_witness :
    isPlainWord "--out".toList = true ∧ isPlainWord "file.txt".toList = true ∧
    ParseArguments ("--out".toList ++ "=".toList ++ "file.txt".toList)
      = ["--out".toList, "=".toList, "file.txt".toList] :=
  ⟨by decide, by decide,
    (C19_equals_sign_separates "--out".toList "file.txt".toList (by decide) (by decide)).1⟩

/-! ## Quotes inside a word -/

theorem quoteMatches_at_quote (y : WString) :
    ∀ (pos : Nat) (anc : Option Nat) (ev : Bool), (∀ a0, anc = some a0 → a0 ≤ pos) →
      ∀ m ∈ quoteMatches y pos anc ev,
        ∃ i, m.position + m.length - 1 = pos + i ∧ y[i]? = some '"' := by
  induction y with
  | nil => intro pos anc ev _ m hm; simp [quoteMatches] at hm
  | cons c y ih =>
    intro pos anc ev h m hm
    have lift : ∀ (anc' : Option Nat) (ev' : Bool), (∀ a0, anc' = some a0 → a0 ≤ pos + 1) →
        m ∈ quoteMatches y (pos + 1) anc' ev' →
        ∃ i, m.position + m.length - 1 = pos + i ∧ (c :: y)[i]? = some '"' := by
      intro anc' ev' hb hm'
      obtain ⟨i, h1, h2⟩ := ih (pos + 1) anc' ev' hb m hm'
      exact ⟨i + 1, by omega, by simpa using h2⟩
    by_cases hb : c = '\\'
    · simp only [quoteMatches, hb, if_true] at hm
      exact lift anc (!ev) (fun a0 ha => by have := h a0 ha; omega) hm
    · by_cases hq : c = '"'
      · subst hq
        cases anc with
        | none =>
          simp only [quoteMatches, hb, if_false, if_true] at hm
          exact lift (some pos) true (fun a0 ha => by cases ha; omega) hm
        | some a1 =>
          cases ev with
          | false =>
            simp only [quoteMatches, hb, if_false, if_true] at hm
            exact lift (some pos) true (fun a0 ha => by cases ha; omega) hm
          | true =>
            simp only [quoteMatches, hb, if_false, if_true, List.mem_cons] at hm
            rcases hm with hm | hm
            · subst hm
              have := h a1 rfl
              exact ⟨0, by simp; omega, by simp⟩
            · exact lift none true (fun a0 ha => by cases ha) hm
      · simp only [quoteMatches, hb, hq, if_false] at hm
        exact lift (some pos) true (fun a0 ha => by cases ha; omega) hm

theorem quoteLoop_uncounted (P E : Nat) :
    ∀ (iter : List Match) (cnt : Nat),
      (∀ m ∈ iter, P ≠ m.position + m.length - 1 ∧ m.position + m.length - 1 ≠ E - 1) →
      (quoteLoop P E iter cnt).2 = cnt := by
  intro iter
  induction iter with
  | nil => intro cnt _; rfl
  | cons m iter ih =>
    intro cnt h
    obtain ⟨h2, h3⟩ := h m (List.mem_cons_self _ _)
    have hno : ¬ (P = m.position + m.length - 1 ∨ m.position + m.length - 1 = E - 1) := by
      omega
    by_cases hin : P ≤ m.position + m.length - 1 ∧ m.position + m.length - 1 < E
    · simp only [quoteLoop, hin, and_self, if_true, hno, if_false]
      exact ih cnt (fun m' hm' => h m' (List.mem_cons_of_mem _ hm'))
    · simp only [quoteLoop, hin, if_false]

/-- C11: a quote in the middle of a word is no delimiter. For every non-empty
word `w` (no whitespace, no `=`) whose first and last characters are no quotes,
`ParseArguments w` is the single token `w`; so `arg"4` is one token, and the
documented line `arg1  arg2 "arg 3"   arg"4` gives the seven tokens `arg1`, two
spaces, `arg2`, one space, `"arg 3"`, three spaces, `arg"4`. -/
theorem C11_inner_quote_ignored (w : WString) (hne : w ≠ [])
    (hw : ∀ c ∈ w, isWordChar c = true)
    (hfirst : w.head? ≠ some '"') (hlast : w.getLast? ≠ some '"') :
    ParseArguments w = [w] ∧
    ParseArguments "arg\"4".toList = ["arg\"4".toList] ∧
    ParseArguments "arg1  arg2 \"arg 3\"   arg\"4".toList
      = ["arg1".toList, "  ".toList, "arg2".toList, " ".toList, "\"arg 3\"".toList,
          "   ".toList, "arg\"4".toList] := by
  refine ⟨?_, by decide, by decide⟩
  have hq : ∀ m ∈ iterQuote w,
      0 ≠ m.position + m.length - 1 ∧ m.position + m.length - 1 ≠ w.length - 1 := by
    intro m hm
    obtain ⟨i, h1, h2⟩ := quoteMatches_at_quote w 0 (some 0) true
      (fun a0 h0 => by cases h0; exact Nat.le_refl 0) m hm
    have hi : i < w.length := by
      by_contra hge
      rw [List.getElem?_eq_none (Nat.le_of_not_lt hge)] at h2
      cases h2
    constructor
    · intro h0
      have hi0 : i = 0 := by omega
      subst hi0
      apply hfirst
      rw [← h2]
      cases w with
      | nil => exact absurd rfl hne
      | cons c cs => simp
    · intro hl
      have hil : i = w.length - 1 := by omega
      subst hil
      apply hlast
      rw [List.getLast?_eq_getElem?, h2]
  have hcnt := quoteLoop_uncounted 0 w.length (iterQuote w) 0 (by simpa using hq)
  unfold ParseArguments iterWord
  rw [wordMatches_word w hne hw 0]
  simp only [parseLoop]
  unfold parseStep
  have hsub : substr w 0 w.length = w := by simp [substr]
  simp only [Nat.lt_irrefl, if_false, Nat.zero_add, hcnt, Nat.zero_mod, Nat.zero_lt_one,
    if_true, Nat.sub_zero, hsub, List.nil_append]

/-- Witness of C11: the word `arg"4`. -/
theorem C11_inner_quote_ignored_witness :
    "arg\"4".toList ≠ [] ∧ ParseArguments "arg\"4".toList = ["arg\"4".toList] :=
  ⟨by decide,
    (C11_inner_quote_ignored "arg\"4".toList (by decide) (by decide) (by decide)
      (by decide)).1⟩

/-! ## Escaped quotes -/

theorem trailingBackslashes_snoc (pre : WString) (c : Char) :
    trailingBackslashes (pre ++ [c]) =
      if c = '\\' then trailingBackslashes pre + 1 else 0 := by
  unfold trailingBackslashes
  by_cases h : c = '\\'
  · simp [List.reverse_append, List.takeWhile_cons, h]
  · simp [List.reverse_append, List.takeWhile_cons, h]

theorem quoteMatches_escaped (x : WString) :
    ∀ (s pre : WString) (anc : Option Nat) (ev : Bool), s = pre ++ x → anc ≠ none →
      (ev = true ↔ trailingBackslashes pre % 2 = 0) →
      (∀ i, pre.length ≤ i → s[i]? = some '"' → backslashesBefore s i % 2 = 1) →
      quoteMatches x pre.length anc ev = [] := by
  induction x with
  | nil => intro s pre anc ev _ _ _ _; rfl
  | cons c cs ih =>
    intro s pre anc ev hs hanc hev hesc
    have hs' : s = (pre ++ [c]) ++ cs := by simp [hs]
    have hlen : (pre ++ [c]).length = pre.length + 1 := by simp
    have hesc' : ∀ i, (pre ++ [c]).length ≤ i → s[i]? = some '"' →
        backslashesBefore s i % 2 = 1 := fun i hi => hesc i (by rw [hlen] at hi; omega)
    have htr := trailingBackslashes_snoc pre c
    by_cases hb : c = '\\'
    · simp only [quoteMatches, hb, if_true]
      have := ih s (pre ++ [c]) anc (!ev) hs' hanc (by
        rw [htr, if_pos hb]
        cases ev with
        | true =>
          have := hev.1 rfl
          simp; omega
        | false =>
          have : ¬ trailingBackslashes pre % 2 = 0 := fun h => by
            have := hev.2 h; cases this
          simp; omega) hesc'
      rw [hlen] at this
      exact this
    · have hnext : quoteMatches cs (pre.length + 1) (some pre.length) true = [] := by
        have := ih s (pre ++ [c]) (some pre.length) true hs' (by simp) (by
          rw [htr, if_neg hb]; simp) hesc'
        rw [hlen] at this
        exact this
      by_cases hq : c = '"'
      · have hc : s[pre.length]? = some '"' := by
          rw [hs, hq]; exact getElem?_append_here pre '"' cs
        have hodd := hesc pre.length (Nat.le_refl _) hc
        have htake : backslashesBefore s pre.length = trailingBackslashes pre := by
          unfold backslashesBefore
          rw [hs]
          simp
        rw [htake] at hodd
        have hevf : ev = false := by
          cases ev with
          | false => rfl
          | true => have := hev.1 rfl; omega
        subst hq
        cases anc with
        | none => exact absurd rfl hanc
        | some a1 =>
          have hne : ('"' : Char) ≠ '\\' := by decide
          simp only [quoteMatches, hne, hevf, if_false, if_true]
          exact hnext
      · simp only [quoteMatches, hb, hq, if_false]
        exact hnext

/-- C12: an escaped quote is no delimiter. For every non-empty word `w` (no
whitespace, no `=`) in which every quote stands immediately behind an odd number
of consecutive backslashes, the quote scanner finds no quote and
`ParseArguments w` is the single token `w`. So the word backslash, quote, `arg`,
backslash, quote is one token, though its last character is a quote. -/
theorem C12_escaped_quote_ignored (w : WString) (hne : w ≠ [])
    (hw : ∀ c ∈ w, isWordChar c = true)
    (hesc : ∀ i, w[i]? = some '"' → backslashesBefore w i % 2 = 1) :
    iterQuote w = [] ∧ ParseArguments w = [w] ∧
    (iterQuote "\\\"arg\\\"".toList = [] ∧
      ParseArguments "\\\"arg\\\"".toList = ["\\\"arg\\\"".toList] ∧
      "\\\"arg\\\"".toList.getLast? = some '"') := by
  have hq : iterQuote w = [] :=
    quoteMatches_escaped w w [] (some 0) true (by simp) (by simp)
      (by simp [trailingBackslashes]) (fun i _ h => hesc i h)
  refine ⟨hq, ?_, by decide⟩
  unfold ParseArguments
  rw [hq]
  have step := parseLoop_plain w w 0 []
    { output := []
      pos_word_0 := 0
      pos_word_1 := 0
      iter_quote := []
      cnt_quote := 0 } hne hw (by simp [substr]) rfl (by intro m hm; cases hm) rfl
  rw [List.append_nil] at step
  unfold iterWord
  rw [step]
  simp [parseLoop]

/-- Witness of C12: the word backslash, quote, `arg`, backslash, quote. -/
theorem C12_escaped_quote_ignored_witness :
    "\\\"arg\\\"".toList ≠ [] ∧
    (backslashesBefore "\\\"arg\\\"".toList 1 = 1 ∧
      backslashesBefore "\\\"arg\\\"".toList 6 = 1) ∧
    iterQuote "\\\"arg\\\"".toList = [] :=
  ⟨by decide, by decide,
    (C12_escaped_quote_ignored "\\\"arg\\\"".toList (by decide) (by decide) (by
      intro i h
      have hi : i < 7 := by
        by_contra hge
        have : "\\\"arg\\\"".toList[i]? = none := by
          apply List.getElem?_eq_none
          have : "\\\"arg\\\"".toList.length = 7 := by decide
          omega
        rw [this] at h; cases h
      interval_cases i <;> (revert h; decide))).1⟩

/-! ## Leading whitespace -/

theorem parseStep_output_grows (s : WString) (w : Match) (R : List Match) (st : ParseState) :
    ∃ more, (parseStep s w R st).output = st.output ++ more := by
  unfold parseStep
  by_cases h1 : st.pos_word_1 < st.pos_word_0
  · simp only [h1, if_true]
    split
    · exact ⟨_, by simp only [List.append_assoc]; rfl⟩
    · exact ⟨_, rfl⟩
  · simp only [h1, if_false]
    split
    · exact ⟨_, rfl⟩
    · exact ⟨[], by simp⟩

theorem parseLoop_output_grows (s : WString) :
    ∀ (R : List Match) (st : ParseState), ∃ more, parseLoop s R st = st.output ++ more := by
  intro R
  induction R with
  | nil => intro st; exact ⟨[], by simp [parseLoop]⟩
  | cons w R ih =>
    intro st
    obtain ⟨m1, h1⟩ := parseStep_output_grows s w R st
    obtain ⟨m2, h2⟩ := ih (parseStep s w R st)
    exact ⟨m1 ++ m2, by simp only [parseLoop]; rw [h2, h1, List.append_assoc]⟩

theorem ParseArguments_leading (ws word tail : WString)
    (hws : ∀ c ∈ ws, isSpace c = true) (hword : isPlainWord word = true)
    (htail : ∀ c, tail.head? = some c → isWordChar c = false) :
    ∃ more, ParseArguments (ws ++ word ++ tail) = (ws ++ word) :: more := by
  obtain ⟨hne, hw, hnq⟩ := isPlainWord_spec word hword
  have hassoc : ws ++ word ++ tail = ws ++ (word ++ tail) := List.append_assoc _ _ _
  -- the words: the first one is `word`, at the end of the whitespace run
  have hwords : ∃ R, iterWord (ws ++ word ++ tail) = ⟨ws.length, word.length⟩ :: R := by
    unfold iterWord
    rw [hassoc, wordMatches_skip ws _ (fun c hc => isSpace_not_word c (hws c hc)) 0]
    cases tail with
    | nil =>
      rw [List.append_nil, wordMatches_word word hne hw]
      exact ⟨[], by simp⟩
    | cons c y =>
      have hc : isWordChar c = false := htail c rfl
      rw [wordMatches_split word c y hc, wordMatches_word word hne hw]
      exact ⟨_, by simp; rfl⟩
  -- the quotes: none in front of the end of `word`
  have hquotes : ∀ m ∈ iterQuote (ws ++ word ++ tail),
      ws.length + word.length ≤ m.position + m.length - 1 := by
    have hnq' : '"' ∉ ws ++ word := by
      intro h
      rcases List.mem_append.1 h with h | h
      · exact isSpace_ne_quote _ (hws _ h) rfl
      · exact hnq h
    obtain ⟨anc, ev, hb, heq⟩ := quoteMatches_no_quote (ws ++ word) hnq' 0 (some 0) true
      (fun a0 h0 => by cases h0; exact Nat.le_refl 0)
    unfold iterQuote
    rw [heq tail]
    intro m hm
    have := quoteMatches_lower tail _ anc ev hb m hm
    simpa using this
  obtain ⟨R, hR⟩ := hwords
  unfold ParseArguments
  rw [hR]
  simp only [parseLoop]
  have hstep : (parseStep (ws ++ word ++ tail) ⟨ws.length, word.length⟩ R
      { output := []
        pos_word_0 := 0
        pos_word_1 := 0
        iter_quote := iterQuote (ws ++ word ++ tail)
        cnt_quote := 0 }).output = [ws ++ word] := by
    unfold parseStep
    have hsub : substr (ws ++ word ++ tail) 0 (ws.length + word.length) = ws ++ word := by
      have := substr_middle [] (ws ++ word) tail
      simpa using this
    simp only [Nat.lt_irrefl, if_false,
      quoteLoop_stop 0 (ws.length + word.length) _ 0 hquotes, Nat.zero_mod, Nat.zero_lt_one,
      if_true, Nat.sub_zero, hsub, List.nil_append]
  obtain ⟨more, hmore⟩ := parseLoop_output_grows (ws ++ word ++ tail) R
    (parseStep (ws ++ word ++ tail) ⟨ws.length, word.length⟩ R
      { output := []
        pos_word_0 := 0
        pos_word_1 := 0
        iter_quote := iterQuote (ws ++ word ++ tail)
        cnt_quote := 0 })
  rw [hstep] at hmore
  exact ⟨more, hmore⟩

/-- C20: leading whitespace joins the first token. For every input made of a
non-empty whitespace run, a word without quote character, and a tail that is
empty or begins with a separator character, the first token of `ParseArguments`
is the whitespace run together with the word (no separate whitespace token
stands in front), and positional index 0 returns this whitespace-prefixed text.
The input of two spaces and `abc` gives the single token of two spaces and
`abc`. -/
theorem C20_leading_whitespace_joined (ws word tail : WString)
    (hws : isWhitespaceToken ws = true) (hword : isPlainWord word = true)
    (htail : ∀ c, tail.head? = some c → isWordChar c = false) :
    (ParseArguments (ws ++ word ++ tail)).head? = some (ws ++ word) ∧
    (GetArgumentIndex (ParseArguments (ws ++ word ++ tail)) 0).1 = true ∧
    (GetArgumentIndex (ParseArguments (ws ++ word ++ tail)) 0).2.1 = ws ++ word ∧
    ParseArguments "  abc".toList = ["  abc".toList] := by
  obtain ⟨c, w', hw, hc, hw'⟩ := isWhitespaceToken_spec ws hws
  have hall : ∀ d ∈ ws, isSpace d = true := by
    intro d hd
    rw [hw] at hd
    rcases List.mem_cons.1 hd with h | h
    · rw [h]; exact hc
    · exact hw' d h
  obtain ⟨more, hmore⟩ := ParseArguments_leading ws word tail hall hword htail
  have hidx := GetArgumentIndex_eq ((ws ++ word) :: more) 0 (by decide)
  rw [hmore]
  refine ⟨rfl, ?_, ?_, by decide⟩
  · have h0 : ((0 : Nat) : Int) = 0 := rfl
    rw [← h0, hidx]
    simp
  · have h0 : ((0 : Nat) : Int) = 0 := rfl
    rw [← h0, hidx]
    simp

/-- Witness of C20: two spaces, the word `abc`, and the tail of a space and
`d`. -/
theorem C20_leading_whitespace_joined_witness :
    isWhitespaceToken "  ".toList = true ∧ isPlainWord "abc".toList = true ∧
    (ParseArguments ("  ".toList ++ "abc".toList ++ " d".toList)).head?
      = some ("  ".toList ++ "abc".toList) :=
  ⟨by decide, by decide,
    (C20_leading_whitespace_joined "  ".toList "abc".toList " d".toList (by decide) (by decide)
      (by intro c h; cases h; decide)).1⟩

/-! ## Tokens as consecutive pieces of the input -/

theorem collapseLoop_append (l1 l2 : List WString) :
    ∀ acc : WString, collapseLoop (l1 ++ l2) acc = collapseLoop l2 (collapseLoop l1 acc) := by
  induction l1 with
  | nil => intro acc; rfl
  | cons a l1 ih => intro acc; simp only [List.cons_append, collapseLoop]; exact ih _

theorem CollapseArguments_push (out : List WString) (tok : WString) :
    CollapseArguments (out ++ [tok]) = CollapseArguments out ++ tok := by
  unfold CollapseArguments
  rw [collapseLoop_append]
  rfl

theorem take_append_substr (s : WString) (a b : Nat) (h : a ≤ b) :
    s.take a ++ substr s a (b - a) = s.take b := by
  unfold substr
  rw [← List.take_add]
  congr 1
  omega

theorem ConsecutiveIn_push (s : WString) (out : List WString) (tok : WString) (n : Nat)
    (hout : ConsecutiveIn s out) (hall : CollapseArguments (out ++ [tok]) = s.take n) :
    ConsecutiveIn s (out ++ [tok]) := by
  intro k
  by_cases hk : k ≤ out.length
  · obtain ⟨n', hn'⟩ := hout k
    refine ⟨n', ?_⟩
    rw [List.take_append_of_le_length hk]
    exact hn'
  · refine ⟨n, ?_⟩
    rw [List.take_of_length_le (by simp; omega)]
    exact hall

theorem reached_even (st : ParseState) (h : st.output.length % 2 = 0) :
    reached st = st.pos_word_0 := by
  unfold reached; rw [if_pos h]

theorem reached_odd (st : ParseState) (h : st.output.length % 2 = 1) :
    reached st = st.pos_word_1 := by
  unfold reached; rw [if_neg (by omega)]

theorem parseStep_consecutive (s : WString) (w : Match) (R : List Match) (st : ParseState)
    (h : ConsecutiveInv s (w :: R) st) : ConsecutiveInv s R (parseStep s w R st) := by
  obtain ⟨hinv, hcons, hcol⟩ := h
  refine ⟨parseStep_keeps s w R st hinv, ?_⟩
  obtain ⟨_, hcase⟩ := hinv
  rcases hcase with ⟨hlen, hle, hws⟩ | ⟨hlen, hp0, hws⟩
  · obtain ⟨h1, _, hwat, _⟩ := hws
    obtain ⟨hw1, _, _, _⟩ := hwat
    have hno : ¬ st.pos_word_1 < st.pos_word_0 := by omega
    have hcol0 : CollapseArguments st.output = s.take st.pos_word_0 := by
      rw [hcol, reached_even st hlen]
    have hpush : CollapseArguments
        (st.output ++ [substr s st.pos_word_0 (w.position + w.length - st.pos_word_0)])
          = s.take (w.position + w.length) := by
      rw [CollapseArguments_push, hcol0]
      exact take_append_substr s _ _ (by omega)
    unfold parseStep
    simp only [hno, if_false]
    split
    · refine ⟨ConsecutiveIn_push s _ _ _ hcons hpush, ?_⟩
      have hodd : (st.output ++ [substr s st.pos_word_0
          (w.position + w.length - st.pos_word_0)]).length % 2 = 1 := by simp; omega
      rw [hpush, reached_odd _ hodd]
    · refine ⟨hcons, ?_⟩
      rw [hcol0]
      simp only [reached, hlen, if_true]
  · obtain ⟨h1, _, hwat, _⟩ := hws
    obtain ⟨hw1, _, _, _⟩ := hwat
    have hp0' : st.pos_word_0 = w.position := hp0
    have hyes : st.pos_word_1 < st.pos_word_0 := by omega
    have hcol1 : CollapseArguments st.output = s.take st.pos_word_1 := by
      rw [hcol, reached_odd st hlen]
    have hpush1 : CollapseArguments
        (st.output ++ [substr s st.pos_word_1 (st.pos_word_0 - st.pos_word_1)])
          = s.take st.pos_word_0 := by
      rw [CollapseArguments_push, hcol1]
      exact take_append_substr s _ _ (by omega)
    have hcons1 := ConsecutiveIn_push s _ _ _ hcons hpush1
    have hpush2 : CollapseArguments
        (st.output ++ [substr s st.pos_word_1 (st.pos_word_0 - st.pos_word_1)] ++
          [substr s st.pos_word_0 (w.position + w.length - st.pos_word_0)])
          = s.take (w.position + w.length) := by
      rw [CollapseArguments_push, hpush1]
      exact take_append_substr s _ _ (by omega)
    unfold parseStep
    simp only [hyes, if_true]
    split
    · refine ⟨ConsecutiveIn_push s _ _ _ hcons1 hpush2, ?_⟩
      have hodd : (st.output ++ [substr s st.pos_word_1 (st.pos_word_0 - st.pos_word_1)] ++
          [substr s st.pos_word_0 (w.position + w.length - st.pos_word_0)]).length % 2 = 1 := by
        simp; omega
      rw [hpush2, reached_odd _ hodd]
    · refine ⟨hcons1, ?_⟩
      have heven : (st.output ++
          [substr s st.pos_word_1 (st.pos_word_0 - st.pos_word_1)]).length % 2 = 0 := by
        simp; omega
      rw [hpush1, reached_even _ heven]

theorem parseLoop_consecutive (s : WString) :
    ∀ (R : List Match) (st : ParseState), ConsecutiveInv s R st →
      ConsecutiveIn s (parseLoop s R st) := by
  intro R
  induction R with
  | nil => intro st h; exact h.2.1
  | cons w R ih => intro st h; exact ih _ (parseStep_consecutive s w R st h)

theorem ConsecutiveInv_start (s : WString) :
    ConsecutiveInv s (iterWord s)
      { output := []
        pos_word_0 := 0
        pos_word_1 := 0
        iter_quote := iterQuote s
        cnt_quote := 0 } := by
  refine ⟨⟨?_, Or.inl ⟨rfl, Nat.le_refl _, iterWord_shape s⟩⟩, ?_, ?_⟩
  · intro i t h; simp at h
  · intro k; exact ⟨0, by simp [CollapseArguments, collapseLoop]⟩
  · simp [CollapseArguments, collapseLoop, reached]

theorem ParseArguments_consecutive (s : WString) : ConsecutiveIn s (ParseArguments s) :=
  parseLoop_consecutive s _ _ (ConsecutiveInv_start s)

/-- C17: prefix losslessness. For every input `s` the tokens of
`ParseArguments s` are non-empty, consecutive pieces of `s`: the token at list
offset `k` is the piece of `s` that starts where the tokens before it end (at
offset 0 for the first token) and has the length of the token. Hence
`CollapseArguments (ParseArguments s)` is an initial part of `s`: nothing is
reordered, duplicated or altered, only a tail can be missing. -/
theorem C17_tokens_are_consecutive_pieces (s : WString) :
    (∀ tok ∈ ParseArguments s, tok ≠ []) ∧
    (∀ (k : Nat) (tok : WString), (ParseArguments s)[k]? = some tok →
      tok = substr s (CollapseArguments ((ParseArguments s).take k)).length tok.length) ∧
    (∃ tail, s = CollapseArguments (ParseArguments s) ++ tail) := by
  have hcons := ParseArguments_consecutive s
  refine ⟨ParseArguments_nonempty s, ?_, ?_⟩
  · intro k tok hk
    obtain ⟨n, hn⟩ := hcons (k + 1)
    have htake : (ParseArguments s).take (k + 1) = (ParseArguments s).take k ++ [tok] := by
      rw [List.take_succ, hk]; rfl
    rw [htake, CollapseArguments_push] at hn
    have hs : s = CollapseArguments ((ParseArguments s).take k) ++ (tok ++ s.drop n) := by
      rw [← List.append_assoc, hn, List.take_append_drop]
    have := substr_middle (CollapseArguments ((ParseArguments s).take k)) tok (s.drop n)
    rw [← hs] at this
    exact this.symm
  · obtain ⟨n, hn⟩ := hcons (ParseArguments s).length
    rw [List.take_length] at hn
    exact ⟨s.drop n, by rw [hn, List.take_append_drop]⟩

/-! ## Input without quotes -/

theorem parseStep_no_quote (s : WString) (w : Match) (R : List Match) (st : ParseState)
    (hinv : AltInv s (w :: R) st) (hiq : st.iter_quote = []) (hcnt : st.cnt_quote = 0) :
    (parseStep s w R st).iter_quote = [] ∧ (parseStep s w R st).cnt_quote = 0 ∧
    (parseStep s w R st).output.length % 2 = 1 ∧
    (parseStep s w R st).pos_word_1 = w.position + w.length := by
  obtain ⟨_, hcase⟩ := hinv
  have hql : ∀ a b, quoteLoop a b [] 0 = ([], 0) := fun a b => rfl
  rcases hcase with ⟨hlen, hle, _⟩ | ⟨hlen, hp0, hws⟩
  · have hno : ¬ st.pos_word_1 < st.pos_word_0 := by omega
    unfold parseStep
    simp only [hno, if_false, hiq, hcnt, hql, Nat.zero_mod, Nat.zero_lt_one, if_true,
      List.length_append, List.length_singleton, and_true, true_and]
    omega
  · obtain ⟨h1, _⟩ := hws
    have hp0' : st.pos_word_0 = w.position := hp0
    have hyes : st.pos_word_1 < st.pos_word_0 := by omega
    unfold parseStep
    simp only [hyes, if_true, hiq, hcnt, hql, Nat.zero_mod, Nat.zero_lt_one,
      List.length_append, List.length_singleton, and_true, true_and]
    omega

theorem parseLoop_no_quote (s : WString) (P F : Nat) :
    ∀ (R : List Match) (st : ParseState), QuotedWords P F R → ConsecutiveInv s R st →
      st.iter_quote = [] → st.cnt_quote = 0 →
      CollapseArguments (parseLoop s R st) = s.take F := by
  intro R
  induction R with
  | nil => intro st h; exact absurd h (by simp [QuotedWords])
  | cons w R ih =>
    intro st hq hinv hiq hcnt
    obtain ⟨_, hcase⟩ := hq
    have hinv' := parseStep_consecutive s w R st hinv
    obtain ⟨h1, h2, h3, h4⟩ := parseStep_no_quote s w R st hinv.1 hiq hcnt
    simp only [parseLoop]
    rcases hcase with ⟨hnil, hend⟩ | ⟨_, hrest⟩
    · subst hnil
      simp only [parseLoop]
      rw [hinv'.2.2, reached_odd _ h3, h4, hend]
    · exact ih _ hrest hinv' h1 h2

/-- C18: round trip on plain input. For every input `s` that holds no quote
character and is empty or ends with a character that is neither whitespace nor
`=`, `CollapseArguments (ParseArguments s) = s`. -/
theorem C18_round_trip_plain (s : WString) (hnq : '"' ∉ s)
    (hend : s = [] ∨ ∃ c, s.getLast? = some c ∧ isSpace c = false ∧ c ≠ '=') :
    CollapseArguments (ParseArguments s) = s := by
  by_cases hs : s = []
  · subst hs; rfl
  · have hlast : ∀ d, s.getLast? = some d → isWordChar d = true := by
      intro d hd
      rcases hend with h | ⟨c, hc, hsp, heq⟩
      · exact absurd h hs
      · rw [hc] at hd
        cases hd
        simp [isWordChar, hsp, heq]
    have hwords := (wordMatches_quoted s).2 0 hs hlast
    have hquotes : iterQuote s = [] :=
      quoteMatches_nil s hnq 0 (some 0) true (fun a0 h0 => by cases h0; exact Nat.le_refl 0)
    have := parseLoop_no_quote s 0 (0 + s.length) (iterWord s)
      { output := []
        pos_word_0 := 0
        pos_word_1 := 0
        iter_quote := iterQuote s
        cnt_quote := 0 } hwords (ConsecutiveInv_start s) hquotes rfl
    unfold ParseArguments
    rw [this, Nat.zero_add, List.take_length]

/-- Witness of C18: the input `a=b  c`, which holds both kinds of separator. -/
theorem C18_round_trip_plain_witness :
    '"' ∉ "a=b  c".toList ∧
    CollapseArguments (ParseArguments "a=b  c".toList) = "a=b  c".toList :=
  ⟨by decide,
    C18_round_trip_plain "a=b  c".toList (by decide)
      (Or.inr ⟨'c', by decide, by decide, by decide⟩)⟩

end Shim
